import Mathlib

/-!
Verification of the emailbot extraction-and-reconciliation engine.

This file shallowly embeds the core of the emailbot repository
(src/emailbot/LinkedInJob.py and src/emailbot/GoogleSheetUpdater.py) in
Lean 4 and proves or refutes the specification claims about it.

Strings are modelled as lists of characters (type Str).  Python string
primitives (replace, strip, split, join, rfind, removesuffix, the "in"
substring test) are given executable definitions that mirror CPython
semantics on the inputs the program handles.  Regular expressions are
run by a small backtracking engine (leftmost match, greedy/lazy
quantifier priority, last-write-wins named groups) faithful to the
Python re module on the patterns used by the program.

Components imported by the program from the external gconanpy library
(Spliterator.spliterate, Abbreviations.abbreviate, ToString.truncate,
Regextract.parse, ReadyChecker) are not part of this repository; they
are modelled from the specification, each marked with a doc comment
starting with the words Modelled from the spec.
-/

/-- Strings as lists of characters. -/
abbrev Str := List Char

/-- Coerce a Lean string literal to the Str model. -/
def str (s : String) : Str := s.data

/-- Python whitespace characters (ASCII subset relevant to this program). -/
def isWsPy (c : Char) : Bool :=
  c = ' ' || c = '\t' || c = '\n' || c = '\x0d' || c = '\x0b' || c = '\x0c'

/-- Python word characters, re module class w (ASCII model). -/
def isWordPy (c : Char) : Bool := c.isAlphanum || c = '_'

/-- Substring occurrence, the Python test a in b, as a Prop. -/
def occursIn (q s : Str) : Prop := ∃ x y, s = x ++ q ++ y

/-- Executable substring test mirroring the Python operator in. -/
def hasSub (q s : Str) : Bool :=
  q.isPrefixOf s || (match s with | [] => false | _ :: t => hasSub q t)

theorem hasSub_iff (q s : Str) : hasSub q s = true ↔ occursIn q s := by
  induction s with
  | nil =>
    simp only [hasSub, occursIn]
    constructor
    · intro h
      have hq : q = [] := by
        cases q with
        | nil => rfl
        | cons a t => simp [List.isPrefixOf] at h
      exact ⟨[], [], by simp [hq]⟩
    · rintro ⟨x, y, hxy⟩
      have hq : q = [] := ((List.append_eq_nil.mp
        ((List.append_eq_nil.mp hxy.symm).1)).2)
      simp [hq, List.isPrefixOf]
  | cons a t ih =>
    rw [hasSub]
    simp only [Bool.or_eq_true]
    constructor
    · rintro (h | h)
      · rcases List.isPrefixOf_iff_prefix.mp h with ⟨y, hy⟩
        exact ⟨[], y, by simp [← hy]⟩
      · rcases ih.mp h with ⟨x, y, hxy⟩
        exact ⟨a :: x, y, by simp [hxy]⟩
    · rintro ⟨x, y, hxy⟩
      cases x with
      | nil =>
        left
        rw [List.isPrefixOf_iff_prefix]
        exact ⟨y, by simpa using hxy.symm⟩
      | cons b xs =>
        right
        refine ih.mpr ⟨xs, y, ?_⟩
        simpa using congrArg List.tail hxy

/-- The empty string occurs in every string (Python: "" in s is True). -/
theorem hasSub_nil (s : Str) : hasSub [] s = true := by
  cases s <;> simp [hasSub, List.isPrefixOf]

/-- Occurrence is transitive along nesting. -/
theorem occursIn_trans {p q s : Str} (h1 : occursIn p q) (h2 : occursIn q s) :
    occursIn p s := by
  rcases h1 with ⟨a, b, rfl⟩
  rcases h2 with ⟨c, d, rfl⟩
  exact ⟨c ++ a, b ++ d, by simp⟩

theorem occursIn_refl (s : Str) : occursIn s s := ⟨[], [], by simp⟩

theorem occursIn_drop {q s : Str} (n : Nat) (h : occursIn q (s.drop n)) :
    occursIn q s := by
  rcases h with ⟨x, y, hxy⟩
  refine ⟨s.take n ++ x, y, ?_⟩
  conv_lhs => rw [← List.take_append_drop n s, hxy]
  simp

theorem occursIn_tail {q : Str} {c : Char} {t : Str} (h : occursIn q t) :
    occursIn q (c :: t) := by
  rcases h with ⟨x, y, rfl⟩
  exact ⟨c :: x, y, rfl⟩

theorem occursIn_cons_elim {q : Str} {c : Char} {t : Str}
    (h : occursIn q (c :: t)) :
    q.IsPrefix (c :: t) ∨ occursIn q t := by
  rcases h with ⟨x, y, hxy⟩
  cases x with
  | nil => exact Or.inl ⟨y, by simpa using hxy.symm⟩
  | cons b xs =>
    exact Or.inr ⟨xs, y, by simpa using congrArg List.tail hxy⟩

/-- An occurrence in a concatenation lies in one side or crosses the seam. -/
theorem occursIn_append_elim {q a b : Str} (h : occursIn q (a ++ b)) :
    occursIn q a ∨ occursIn q b ∨
      ∃ q1 q2, q = q1 ++ q2 ∧ q1 ≠ [] ∧ q2 ≠ [] ∧
        q1.IsSuffix a ∧ q2.IsPrefix b := by
  induction a with
  | nil => exact Or.inr (Or.inl (by simpa using h))
  | cons c t ih =>
    have h2 : occursIn q (c :: (t ++ b)) := by simpa using h
    rcases occursIn_cons_elim h2 with hp | ht
    · cases q with
      | nil => exact Or.inl ⟨[], c :: t, by simp⟩
      | cons qc qt =>
        rcases hp with ⟨z, hz⟩
        have hc : qc = c := by simpa using congrArg List.head? hz
        subst hc
        have hqt : qt ++ z = t ++ b := by simpa using congrArg List.tail hz
        by_cases hlen : qt.length ≤ t.length
        · left
          have htp : qt.IsPrefix t :=
            List.prefix_of_prefix_length_le ⟨z, hqt⟩ (List.prefix_append t b) hlen
          rcases htp with ⟨w, hw⟩
          exact ⟨[], w, by simp [← hw]⟩
        · right; right
          have htq : t.IsPrefix qt :=
            List.prefix_of_prefix_length_le (List.prefix_append t b) ⟨z, hqt⟩
              (Nat.le_of_lt (Nat.lt_of_not_le hlen))
          rcases htq with ⟨rest, hrest⟩
          have hrb : rest.IsPrefix b := by
            refine ⟨z, ?_⟩
            have h3 : t ++ (rest ++ z) = t ++ b := by
              rw [← List.append_assoc, hrest]
              exact hqt
            exact List.append_cancel_left h3
          have hrne : rest ≠ [] := by
            intro he
            apply hlen
            rw [← hrest, he]
            simp
          exact ⟨qc :: t, rest, by simp [← hrest], by simp, hrne,
            List.suffix_refl _, hrb⟩
    · rcases ih ht with h1 | h2 | h3
      · exact Or.inl (occursIn_tail h1)
      · exact Or.inr (Or.inl h2)
      · rcases h3 with ⟨q1, q2, hq, hn1, hn2, hs, hp2⟩
        exact Or.inr (Or.inr ⟨q1, q2, hq, hn1, hn2,
          hs.trans (List.suffix_cons c t), hp2⟩)

theorem occursIn_of_isPre {q s : Str} (h : q.IsPrefix s) : occursIn q s := by
  rcases h with ⟨w, hw⟩
  exact ⟨[], w, by simp [← hw]⟩

theorem occursIn_of_isSuf {q s : Str} (h : q.IsSuffix s) : occursIn q s := by
  rcases h with ⟨w, hw⟩
  exact ⟨w, [], by simp [← hw]⟩

theorem occursIn_nil_elim {q : Str} (h : occursIn q [])  : q = [] := by
  rcases h with ⟨x, y, hxy⟩
  exact ((List.append_eq_nil.mp ((List.append_eq_nil.mp hxy.symm).1)).2)

/-- Python str.replace: replace every non-overlapping occurrence of p by r,
scanning left to right.  For empty p the model returns the string unchanged
(the program only replaces non-empty literals). -/
def replaceAllGo (p r : Str) : Nat → Str → Str
  | 0, _ => []
  | _ + 1, [] => []
  | fuel + 1, c :: t =>
    if p = [] then c :: t
    else if p.isPrefixOf (c :: t) then
      r ++ replaceAllGo p r fuel (t.drop (p.length - 1))
    else c :: replaceAllGo p r fuel t

def replaceAll (p r s : Str) : Str := replaceAllGo p r s.length s

/-- The fuel of the replacement scan is irrelevant once it covers the
input length: every step consumes at least one character. -/
theorem replaceAllGo_fuel (p r : Str) :
    ∀ (n : Nat) (s : Str), s.length ≤ n → ∀ f1 f2, s.length ≤ f1 →
      s.length ≤ f2 → replaceAllGo p r f1 s = replaceAllGo p r f2 s := by
  intro n
  induction n with
  | zero =>
    intro s hs f1 f2 _ _
    have hs0 : s = [] := List.length_eq_zero.mp (Nat.le_zero.mp hs)
    subst hs0
    cases f1 <;> cases f2 <;> rfl
  | succ n ih =>
    intro s hs f1 f2 h1 h2
    cases s with
    | nil => cases f1 <;> cases f2 <;> rfl
    | cons c t =>
      simp only [List.length_cons] at hs h1 h2
      cases f1 with
      | zero => omega
      | succ g1 =>
        cases f2 with
        | zero => omega
        | succ g2 =>
          rw [replaceAllGo, replaceAllGo]
          by_cases hp : p = []
          · simp [hp]
          · simp only [hp, if_false]
            by_cases hm : p.isPrefixOf (c :: t)
            · have hd : (t.drop (p.length - 1)).length ≤ t.length := by simp
              rw [if_pos hm, if_pos hm,
                ih (t.drop (p.length - 1)) (by omega) g1 g2 (by omega)
                  (by omega)]
            · rw [if_neg hm, if_neg hm,
                ih t (by omega) g1 g2 (by omega) (by omega)]

theorem replaceAll_nil (p r : Str) : replaceAll p r [] = [] := rfl

theorem replaceAll_empty (r s : Str) : replaceAll [] r s = s := by
  cases s with
  | nil => rfl
  | cons c t =>
    rw [replaceAll, List.length_cons, replaceAllGo]
    simp

theorem replaceAll_match {p : Str} (r s : Str) (hp : p ≠ [])
    (hm : p.isPrefixOf s) :
    replaceAll p r s = r ++ replaceAll p r (s.drop p.length) := by
  cases s with
  | nil =>
    exact absurd (List.prefix_nil.mp (List.isPrefixOf_iff_prefix.mp hm)) hp
  | cons c t =>
    rw [replaceAll, List.length_cons, replaceAllGo]
    simp only [hp, if_false, hm, if_true]
    have hlen : 0 < p.length := List.length_pos.mpr hp
    have hd : (c :: t).drop p.length = t.drop (p.length - 1) := by
      cases hp2 : p.length with
      | zero => omega
      | succ k =>
        simp [List.drop_succ_cons]
    rw [hd, replaceAll]
    rw [replaceAllGo_fuel p r t.length (t.drop (p.length - 1)) (by simp)
      t.length (t.drop (p.length - 1)).length (by simp) le_rfl]

theorem replaceAll_skip {p : Str} (r : Str) {c : Char} {t : Str}
    (hp : p ≠ []) (hm : ¬ p.isPrefixOf (c :: t)) :
    replaceAll p r (c :: t) = c :: replaceAll p r t := by
  rw [replaceAll, List.length_cons, replaceAllGo]
  simp [hp, hm]
  rfl

/-- Transfer of pending prefixes backwards through replaceAll: if no nonempty
suffix t of q aligns with the replacement r at either end, then a suffix of q
that is a prefix of the replaced string was already a prefix of the input. -/
theorem replaceAll_prefix_rev (p r q : Str) (hp : p ≠ [])
    (hcond : ∀ t, t.IsSuffix q → t ≠ [] → ¬ t.IsPrefix r ∧ ¬ r.IsPrefix t) :
    ∀ s t, t.IsSuffix q → t ≠ [] → t.IsPrefix (replaceAll p r s) →
      t.IsPrefix s := by
  have main : ∀ n (s : Str), s.length ≤ n → ∀ t, t.IsSuffix q → t ≠ [] →
      t.IsPrefix (replaceAll p r s) → t.IsPrefix s := by
    intro n
    induction n with
    | zero =>
      intro s hs t htq htne hpre
      have hs0 : s = [] := List.length_eq_zero.mp (Nat.le_zero.mp hs)
      subst hs0
      rw [replaceAll_nil] at hpre
      exact absurd (List.prefix_nil.mp hpre) htne
    | succ n ih =>
      intro s hs t htq htne hpre
      by_cases hm : p.isPrefixOf s
      · rw [replaceAll_match r s hp hm] at hpre
        by_cases hlen : t.length ≤ r.length
        · have h1 : t.IsPrefix r :=
            List.prefix_of_prefix_length_le hpre
              (List.prefix_append r (replaceAll p r (s.drop p.length))) hlen
          exact absurd h1 (hcond t htq htne).1
        · have h1 : r.IsPrefix t :=
            List.prefix_of_prefix_length_le
              (List.prefix_append r (replaceAll p r (s.drop p.length))) hpre
              (Nat.le_of_lt (Nat.lt_of_not_le hlen))
          exact absurd h1 (hcond t htq htne).2
      · cases s with
        | nil =>
          rw [replaceAll_nil] at hpre
          exact absurd (List.prefix_nil.mp hpre) htne
        | cons c t' =>
          rw [replaceAll_skip r hp hm] at hpre
          cases t with
          | nil => exact absurd rfl htne
          | cons tc tt =>
            rcases hpre with ⟨z, hz⟩
            have hc : tc = c := by simpa using congrArg List.head? hz
            subst hc
            have htt : tt.IsPrefix (replaceAll p r t') :=
              ⟨z, by simpa using congrArg List.tail hz⟩
            by_cases httne : tt = []
            · subst httne
              exact ⟨t', by simp⟩
            · have httq : tt.IsSuffix q :=
                List.IsSuffix.trans ⟨[tc], rfl⟩ htq
              have h2 : tt.IsPrefix t' := by
                refine ih t' ?_ tt httq httne htt
                have := hs
                simp at this
                omega
              rcases h2 with ⟨w, hw⟩
              exact ⟨w, by simp [hw]⟩
  intro s
  exact main s.length s le_rfl

/-- No-creation: replacing p by r cannot create a fresh occurrence of q when
q does not occur in r, no nonempty suffix of q aligns with r at a seam, and
no nonempty proper prefix of q is a suffix of r. -/
theorem replaceAll_no_create (p r q : Str) (hp : p ≠ []) (hq : q ≠ [])
    (hcond : ∀ t, t.IsSuffix q → t ≠ [] → ¬ t.IsPrefix r ∧ ¬ r.IsPrefix t)
    (hqr : ¬ occursIn q r)
    (hcross : ∀ q1 q2, q = q1 ++ q2 → q1 ≠ [] → q2 ≠ [] → ¬ q1.IsSuffix r) :
    ∀ s, occursIn q (replaceAll p r s) → occursIn q s := by
  have main : ∀ n (s : Str), s.length ≤ n →
      occursIn q (replaceAll p r s) → occursIn q s := by
    intro n
    induction n with
    | zero =>
      intro s hs hocc
      have hs0 : s = [] := List.length_eq_zero.mp (Nat.le_zero.mp hs)
      subst hs0
      rw [replaceAll_nil] at hocc
      exact absurd (occursIn_nil_elim hocc) hq
    | succ n ih =>
      intro s hs hocc
      by_cases hm : p.isPrefixOf s
      · rw [replaceAll_match r s hp hm] at hocc
        rcases occursIn_append_elim hocc with h1 | h2 | h3
        · exact absurd h1 hqr
        · have hdl : (s.drop p.length).length ≤ n := by
            have h4 : 0 < p.length := List.length_pos.mpr hp
            simp
            omega
          exact occursIn_drop p.length (ih (s.drop p.length) hdl h2)
        · rcases h3 with ⟨q1, q2, hq12, hn1, hn2, hsuf, _⟩
          exact absurd hsuf (hcross q1 q2 hq12 hn1 hn2)
      · cases s with
        | nil =>
          rw [replaceAll_nil] at hocc
          exact absurd (occursIn_nil_elim hocc) hq
        | cons c t' =>
          rw [replaceAll_skip r hp hm] at hocc
          rcases occursIn_cons_elim hocc with hpre | htl
          · cases q with
            | nil => exact absurd rfl hq
            | cons qc qt =>
              rcases hpre with ⟨z, hz⟩
              have hc : qc = c := by simpa using congrArg List.head? hz
              subst hc
              have hqt : qt.IsPrefix (replaceAll p r t') :=
                ⟨z, by simpa using congrArg List.tail hz⟩
              by_cases hqtne : qt = []
              · subst hqtne
                exact ⟨[], t', by simp⟩
              · have h5 : qt.IsPrefix t' :=
                  replaceAll_prefix_rev p r (qc :: qt) hp hcond t' qt
                    ⟨[qc], rfl⟩ hqtne hqt
                rcases h5 with ⟨w, hw⟩
                exact ⟨[], w, by simp [← hw]⟩
          · have ht' : t'.length ≤ n := by
              have := hs
              simp at this
              omega
            exact occursIn_tail (ih t' ht' htl)
  intro s
  exact main s.length s le_rfl

/-- Self-removal: replacing a space-free nonempty literal p by a single
space leaves no occurrence of p behind. -/
theorem replaceAll_removes (p : Str) (hp : p ≠ []) (hsp : ∀ c ∈ p, c ≠ ' ') :
    ∀ s, ¬ occursIn p (replaceAll p [' '] s) := by
  have hcond : ∀ t, t.IsSuffix p → t ≠ [] → ¬ t.IsPrefix [' '] ∧
      ¬ List.IsPrefix [' '] t := by
    intro t hts htne
    constructor
    · intro hpre
      cases t with
      | nil => exact htne rfl
      | cons tc tt =>
        rcases hpre with ⟨z, hz⟩
        have hc : tc = ' ' := by simpa using congrArg List.head? hz
        have : tc ∈ p := hts.subset (by simp)
        exact hsp tc this hc
    · intro hpre
      cases t with
      | nil => exact htne rfl
      | cons tc tt =>
        rcases hpre with ⟨z, hz⟩
        have hc : ' ' = tc := by simpa using congrArg List.head? hz
        have : tc ∈ p := hts.subset (by simp)
        exact hsp tc this hc.symm
  have main : ∀ n (s : Str), s.length ≤ n →
      ¬ occursIn p (replaceAll p [' '] s) := by
    intro n
    induction n with
    | zero =>
      intro s hs hocc
      have hs0 : s = [] := List.length_eq_zero.mp (Nat.le_zero.mp hs)
      subst hs0
      rw [replaceAll_nil] at hocc
      exact hp (occursIn_nil_elim hocc)
    | succ n ih =>
      intro s hs hocc
      by_cases hm : p.isPrefixOf s
      · rw [replaceAll_match [' '] s hp hm] at hocc
        rcases occursIn_append_elim hocc with h1 | h2 | h3
        · rcases h1 with ⟨x, y, hxy⟩
          have hlen : p.length ≤ 1 := by
            have := congrArg List.length hxy
            simp at this
            omega
          cases p with
          | nil => exact hp rfl
          | cons pc pt =>
            have hpt : pt = [] := by
              simp only [List.length_cons] at hlen
              exact List.length_eq_zero.mp (by omega)
            subst hpt
            have hx : x = [] := by
              have h7 := congrArg List.length hxy
              simp only [List.length_append, List.length_cons,
                List.length_nil] at h7
              exact List.length_eq_zero.mp (by omega)
            subst hx
            have : pc = ' ' := by simpa using congrArg List.head? hxy.symm
            exact hsp pc (by simp) this
        · have hdl : (s.drop p.length).length ≤ n := by
            have h4 : 0 < p.length := List.length_pos.mpr hp
            simp
            omega
          exact ih (s.drop p.length) hdl h2
        · rcases h3 with ⟨q1, q2, hq12, hn1, hn2, hsuf, _⟩
          rcases hsuf with ⟨w, hw⟩
          cases q1 with
          | nil => exact hn1 rfl
          | cons qc qt =>
            have hqt : qt = [] ∧ w = [] := by
              have h7 := congrArg List.length hw
              simp only [List.length_append, List.length_cons,
                List.length_nil] at h7
              constructor
              · exact List.length_eq_zero.mp (by omega)
              · exact List.length_eq_zero.mp (by omega)
            have hc : qc = ' ' := by
              rcases hqt with ⟨h5, h6⟩
              subst h5; subst h6
              simpa using congrArg List.head? hw
            have : qc ∈ p := by
              rw [hq12]
              simp
            exact hsp qc this hc
      · cases s with
        | nil =>
          rw [replaceAll_nil] at hocc
          exact hp (occursIn_nil_elim hocc)
        | cons c t' =>
          rw [replaceAll_skip [' '] hp hm] at hocc
          rcases occursIn_cons_elim hocc with hpre | htl
          · cases p with
            | nil => exact hp rfl
            | cons pc pt =>
              rcases hpre with ⟨z, hz⟩
              have hc : pc = c := by simpa using congrArg List.head? hz
              have hqt : pt.IsPrefix (replaceAll (pc :: pt) [' '] t') :=
                ⟨z, by simpa using congrArg List.tail hz⟩
              by_cases hptne : pt = []
              · apply hm
                rw [List.isPrefixOf_iff_prefix]
                subst hptne
                exact ⟨t', by simp [hc]⟩
              · have h5 : pt.IsPrefix t' :=
                  replaceAll_prefix_rev (pc :: pt) [' '] (pc :: pt) hp hcond t'
                    pt ⟨[pc], rfl⟩ hptne hqt
                apply hm
                rw [List.isPrefixOf_iff_prefix]
                rcases h5 with ⟨w, hw⟩
                exact ⟨w, by simp [hc, hw]⟩
          · have ht' : t'.length ≤ n := by
              have := hs
              simp at this
              omega
            exact ih t' ht' htl
  intro s
  exact main s.length s le_rfl

/-- replaceAll is the identity when the literal does not occur. -/
theorem replaceAll_id (p r : Str) :
    ∀ s, ¬ occursIn p s → replaceAll p r s = s := by
  have main : ∀ n (s : Str), s.length ≤ n → ¬ occursIn p s →
      replaceAll p r s = s := by
    intro n
    induction n with
    | zero =>
      intro s hs _
      have hs0 : s = [] := List.length_eq_zero.mp (Nat.le_zero.mp hs)
      subst hs0
      exact replaceAll_nil p r
    | succ n ih =>
      intro s hs hocc
      by_cases hp : p = []
      · subst hp
        exact replaceAll_empty r s
      by_cases hm : p.isPrefixOf s
      · exact absurd (occursIn_of_isPre (List.isPrefixOf_iff_prefix.mp hm))
          hocc
      · cases s with
        | nil => exact replaceAll_nil p r
        | cons c t' =>
          rw [replaceAll_skip r hp hm]
          have ht' : t'.length ≤ n := by
            have := hs
            simp at this
            omega
          rw [ih t' ht' (fun h => hocc (occursIn_tail h))]
  intro s
  exact main s.length s le_rfl

/-- All characters of a string are non-whitespace. -/
def noWs (s : Str) : Prop := ∀ c ∈ s, isWsPy c = false

/-- Python str.strip() with no arguments. -/
def pyStrip (s : Str) : Str :=
  ((s.dropWhile (fun c => isWsPy c)).reverse.dropWhile
    (fun c => isWsPy c)).reverse

theorem pyStrip_occurs (s : Str) : occursIn (pyStrip s) s := by
  have h1 : (s.dropWhile (fun c => isWsPy c)).IsSuffix s :=
    List.dropWhile_suffix _
  have h2 : ((s.dropWhile (fun c => isWsPy c)).reverse.dropWhile
      (fun c => isWsPy c)).IsSuffix (s.dropWhile (fun c => isWsPy c)).reverse :=
    List.dropWhile_suffix _
  have h3 := List.reverse_prefix.mpr h2
  simp only [List.reverse_reverse] at h3
  exact occursIn_trans (occursIn_of_isPre h3) (occursIn_of_isSuf h1)

theorem pyStrip_sublist (s : Str) : (pyStrip s).Sublist s := by
  have h1 : (s.dropWhile (fun c => isWsPy c)).Sublist s :=
    (List.dropWhile_suffix _).sublist
  have h2 : ((s.dropWhile (fun c => isWsPy c)).reverse.dropWhile
      (fun c => isWsPy c)).Sublist (s.dropWhile (fun c => isWsPy c)).reverse :=
    (List.dropWhile_suffix _).sublist
  have h3 := h2.reverse
  simp only [List.reverse_reverse] at h3
  exact (h3.trans h1)

theorem pyStrip_id {s : Str} (hhead : ∃ c t, s = c :: t ∧ isWsPy c = false)
    (hlast : ∃ i c, s = i ++ [c] ∧ isWsPy c = false) : pyStrip s = s := by
  rcases hhead with ⟨c, t, rfl, hc⟩
  rcases hlast with ⟨i, d, hiw, hd⟩
  rw [pyStrip]
  rw [List.dropWhile_cons_of_neg (by simp [hc])]
  rw [hiw]
  rw [List.reverse_append]
  simp only [List.reverse_cons, List.reverse_nil, List.nil_append,
    List.singleton_append]
  rw [List.dropWhile_cons_of_neg (by simp [hd])]
  simp

theorem pyStrip_nil : pyStrip [] = [] := by rw [pyStrip]; simp

/-- Python str.split() with no arguments: split the string at runs of
whitespace, dropping empty pieces. -/
def wordsPyGo : Nat → Str → List Str
  | 0, _ => []
  | _ + 1, [] => []
  | fuel + 1, c :: t =>
    if isWsPy c then wordsPyGo fuel t
    else (c :: t.takeWhile (fun d => !isWsPy d)) ::
      wordsPyGo fuel (t.dropWhile (fun d => !isWsPy d))

def wordsPy (s : Str) : List Str := wordsPyGo s.length s

theorem wordsPyGo_fuel :
    ∀ (n : Nat) (s : Str), s.length ≤ n → ∀ f1 f2, s.length ≤ f1 →
      s.length ≤ f2 → wordsPyGo f1 s = wordsPyGo f2 s := by
  intro n
  induction n with
  | zero =>
    intro s hs f1 f2 _ _
    have hs0 : s = [] := List.length_eq_zero.mp (Nat.le_zero.mp hs)
    subst hs0
    cases f1 <;> cases f2 <;> rfl
  | succ n ih =>
    intro s hs f1 f2 h1 h2
    cases s with
    | nil => cases f1 <;> cases f2 <;> rfl
    | cons c t =>
      simp only [List.length_cons] at hs h1 h2
      cases f1 with
      | zero => omega
      | succ g1 =>
        cases f2 with
        | zero => omega
        | succ g2 =>
          rw [wordsPyGo, wordsPyGo]
          by_cases hc : isWsPy c
          · rw [if_pos hc, if_pos hc, ih t (by omega) g1 g2 (by omega)
              (by omega)]
          · have hd : (t.dropWhile (fun d => !isWsPy d)).length ≤
                t.length := (List.dropWhile_suffix _).sublist.length_le
            rw [if_neg hc, if_neg hc,
              ih (t.dropWhile (fun d => !isWsPy d)) (by omega) g1 g2
                (by omega) (by omega)]

theorem wordsPy_nil : wordsPy [] = [] := rfl

theorem wordsPy_ws {c : Char} (t : Str) (hc : isWsPy c = true) :
    wordsPy (c :: t) = wordsPy t := by
  rw [wordsPy, List.length_cons, wordsPyGo, if_pos hc]
  rfl

theorem wordsPy_word {c : Char} (t : Str) (hc : isWsPy c = false) :
    wordsPy (c :: t) = (c :: t.takeWhile (fun d => !isWsPy d)) ::
      wordsPy (t.dropWhile (fun d => !isWsPy d)) := by
  rw [wordsPy, List.length_cons, wordsPyGo,
    if_neg (by simp [hc] : ¬ isWsPy c = true), wordsPy]
  rw [wordsPyGo_fuel t.length (t.dropWhile (fun d => !isWsPy d))
    (List.dropWhile_suffix _).sublist.length_le t.length
    (t.dropWhile (fun d => !isWsPy d)).length
    (List.dropWhile_suffix _).sublist.length_le le_rfl]

theorem takeWhile_all {p : Char → Bool} {w : Str} (s : Str)
    (hw : ∀ c ∈ w, p c = true) :
    (w ++ s).takeWhile p = w ++ s.takeWhile p := by
  induction w with
  | nil => simp
  | cons c t ih =>
    have hc : p c = true := hw c (by simp)
    simp only [List.cons_append, List.takeWhile_cons, hc, if_true]
    rw [ih (fun d hd => hw d (by simp [hd]))]

theorem dropWhile_all {p : Char → Bool} {w : Str} (s : Str)
    (hw : ∀ c ∈ w, p c = true) :
    (w ++ s).dropWhile p = s.dropWhile p := by
  induction w with
  | nil => simp
  | cons c t ih =>
    have hc : p c = true := hw c (by simp)
    simp only [List.cons_append, List.dropWhile_cons, hc, if_true]
    exact ih (fun d hd => hw d (by simp [hd]))

/-- A nonempty whitespace-free string splits into exactly itself. -/
theorem wordsPy_single {w : Str} (hne : w ≠ []) (hw : noWs w) :
    wordsPy w = [w] := by
  cases w with
  | nil => exact absurd rfl hne
  | cons c t =>
    rw [wordsPy_word t (hw c (by simp))]
    have ht : ∀ d ∈ t, (!isWsPy d) = true := by
      intro d hd
      simp [hw d (by simp [hd])]
    have h1 : t.takeWhile (fun d => !isWsPy d) = t := by
      have := takeWhile_all (w := t) [] ht
      simpa using this
    have h2 : t.dropWhile (fun d => !isWsPy d) = [] := by
      have := dropWhile_all (w := t) [] ht
      simpa [wordsPy_nil] using this
    rw [h1, h2, wordsPy_nil]

theorem wordsPy_word_append {w : Str} (s : Str) (hne : w ≠ []) (hw : noWs w) :
    wordsPy (w ++ ' ' :: s) = w :: wordsPy s := by
  cases w with
  | nil => exact absurd rfl hne
  | cons c t =>
    have hc : isWsPy c = false := hw c (by simp)
    have ht : ∀ d ∈ t, (!isWsPy d) = true := by
      intro d hd
      simp [hw d (by simp [hd])]
    rw [List.cons_append, wordsPy_word _ hc]
    have h1 : (t ++ ' ' :: s).takeWhile (fun d => !isWsPy d) = t := by
      rw [takeWhile_all _ ht]
      simp [List.takeWhile_cons, isWsPy]
    have h2 : (t ++ ' ' :: s).dropWhile (fun d => !isWsPy d) = ' ' :: s := by
      rw [dropWhile_all _ ht]
      simp [List.dropWhile_cons, isWsPy]
    rw [h1, h2, wordsPy_ws s (by simp [isWsPy])]

/-- Join a list of words with single spaces (Python " ".join). -/
def joinSp : List Str → Str
  | [] => []
  | [w] => w
  | w :: ws => w ++ ' ' :: joinSp ws

theorem joinSp_cons {w : Str} {ws : List Str} (hne : ws ≠ []) :
    joinSp (w :: ws) = w ++ ' ' :: joinSp ws := by
  cases ws with
  | nil => exact absurd rfl hne
  | cons v vs => rfl

/-- Every word of a good word list is one of the split pieces again. -/
theorem wordsPy_joinSp {ws : List Str} (h : ∀ w ∈ ws, w ≠ [] ∧ noWs w) :
    wordsPy (joinSp ws) = ws := by
  induction ws with
  | nil => simpa using wordsPy_nil
  | cons w vs ih =>
    cases vs with
    | nil =>
      rw [joinSp]
      exact wordsPy_single (h w (by simp)).1 (h w (by simp)).2
    | cons v vs2 =>
      rw [joinSp_cons (by simp)]
      rw [wordsPy_word_append _ (h w (by simp)).1 (h w (by simp)).2]
      rw [ih (fun u hu => h u (by simp [hu]))]

theorem joinSp_ne_nil {ws : List Str} (hne : ws ≠ [])
    (h : ∀ w ∈ ws, w ≠ []) : joinSp ws ≠ [] := by
  cases ws with
  | nil => exact absurd rfl hne
  | cons w vs =>
    cases vs with
    | nil =>
      rw [joinSp]
      exact h w (by simp)
    | cons v vs2 =>
      rw [joinSp_cons (by simp)]
      simp [h w (by simp)]

/-- The last character of a good join is a non-whitespace character. -/
theorem joinSp_last {ws : List Str} (hne : ws ≠ [])
    (h : ∀ w ∈ ws, w ≠ [] ∧ noWs w) :
    ∃ i c, joinSp ws = i ++ [c] ∧ isWsPy c = false := by
  induction ws with
  | nil => exact absurd rfl hne
  | cons w vs ih =>
    cases vs with
    | nil =>
      have hw := h w (by simp)
      rcases List.eq_nil_or_concat w with hcon | ⟨i, c, hcon⟩
      · exact absurd hcon hw.1
      · refine ⟨i, c, ?_, hw.2 c (by simp [hcon])⟩
        rw [joinSp, hcon]
        simp
    | cons v vs2 =>
      rcases ih (by simp) (fun u hu => h u (by simp [hu])) with ⟨i, c, hic, hc⟩
      refine ⟨w ++ ' ' :: i, c, ?_, hc⟩
      rw [joinSp_cons (by simp), hic]
      simp

/-- Stripping a good join is the identity. -/
theorem pyStrip_joinSp {ws : List Str} (h : ∀ w ∈ ws, w ≠ [] ∧ noWs w) :
    pyStrip (joinSp ws) = joinSp ws := by
  cases ws with
  | nil => simpa using pyStrip_nil
  | cons w vs =>
    apply pyStrip_id
    · have hw := h w (by simp)
      cases hw1 : w with
      | nil => exact absurd hw1 hw.1
      | cons c t =>
        cases vs with
        | nil =>
          refine ⟨c, t, ?_, hw.2 c (by rw [hw1]; simp)⟩
          rw [joinSp]
        | cons v vs2 =>
          refine ⟨c, t ++ ' ' :: joinSp (v :: vs2), ?_,
            hw.2 c (by rw [hw1]; simp)⟩
          rw [joinSp_cons (by simp)]
          simp
    · exact joinSp_last (by simp) h

/-- A space-free occurrence in a join lies inside one of the words. -/
theorem occursIn_joinSp_elim {q : Str} {ws : List Str} (hq : q ≠ [])
    (hsp : ' ' ∉ q) (h : occursIn q (joinSp ws)) :
    ∃ w ∈ ws, occursIn q w := by
  induction ws with
  | nil =>
    rw [joinSp] at h
    exact absurd (occursIn_nil_elim h) hq
  | cons w vs ih =>
    cases vs with
    | nil =>
      rw [joinSp] at h
      exact ⟨w, by simp, h⟩
    | cons v vs2 =>
      rw [joinSp_cons (by simp)] at h
      rcases occursIn_append_elim h with h1 | h2 | h3
      · exact ⟨w, by simp, h1⟩
      · rcases occursIn_cons_elim h2 with hpre | htl
        · cases q with
          | nil => exact absurd rfl hq
          | cons qc qt =>
            rcases hpre with ⟨z, hz⟩
            have hc : qc = ' ' := by simpa using congrArg List.head? hz
            exact absurd (by simp [hc]) hsp
        · rcases ih htl with ⟨u, hu, hocc⟩
          exact ⟨u, by simp [hu], hocc⟩
      · rcases h3 with ⟨q1, q2, hq12, hn1, hn2, _, hpre⟩
        cases q2 with
        | nil => exact absurd rfl hn2
        | cons qc qt =>
          rcases hpre with ⟨z, hz⟩
          have hc : qc = ' ' := by simpa using congrArg List.head? hz
          have : qc ∈ q := by
            rw [hq12]
            simp
          exact absurd (hc ▸ this) hsp

/-- Every split word occurs in the original string. -/
theorem wordsPy_occurs : ∀ (s : Str), ∀ w ∈ wordsPy s, occursIn w s := by
  have main : ∀ n (s : Str), s.length ≤ n → ∀ w ∈ wordsPy s, occursIn w s := by
    intro n
    induction n with
    | zero =>
      intro s hs w hw
      have hs0 : s = [] := List.length_eq_zero.mp (Nat.le_zero.mp hs)
      subst hs0
      rw [wordsPy_nil] at hw
      simp at hw
    | succ n ih =>
      intro s hs w hw
      cases s with
      | nil =>
        rw [wordsPy_nil] at hw
        simp at hw
      | cons c t =>
        by_cases hc : isWsPy c
        · rw [wordsPy_ws t hc] at hw
          exact occursIn_tail (ih t (by simp at hs; omega) w hw)
        · rw [wordsPy_word t (by simpa using hc)] at hw
          rcases List.mem_cons.mp hw with h1 | h2
          · subst h1
            refine ⟨[], t.dropWhile (fun d => !isWsPy d), ?_⟩
            conv_lhs => rw [← List.takeWhile_append_dropWhile
              (fun d => !isWsPy d) t]
            simp
          · have hlen : (t.dropWhile (fun d => !isWsPy d)).length ≤ n := by
              have h4 : (t.dropWhile (fun d => !isWsPy d)).length ≤ t.length :=
                (List.dropWhile_suffix _).sublist.length_le
              simp at hs
              omega
            have h5 := ih _ hlen w h2
            rcases (List.dropWhile_suffix (fun d => !isWsPy d) (l := t))
              with ⟨z, hz⟩
            rcases h5 with ⟨x, y, hxy⟩
            exact occursIn_tail ⟨z ++ x, y, by rw [← hz, hxy]; simp⟩
  exact fun s => main s.length s le_rfl

/-- Words produced by split are nonempty and whitespace-free. -/
theorem wordsPy_good : ∀ (s : Str), ∀ w ∈ wordsPy s, w ≠ [] ∧ noWs w := by
  have main : ∀ n (s : Str), s.length ≤ n → ∀ w ∈ wordsPy s,
      w ≠ [] ∧ noWs w := by
    intro n
    induction n with
    | zero =>
      intro s hs w hw
      have hs0 : s = [] := List.length_eq_zero.mp (Nat.le_zero.mp hs)
      subst hs0
      rw [wordsPy_nil] at hw
      simp at hw
    | succ n ih =>
      intro s hs w hw
      cases s with
      | nil =>
        rw [wordsPy_nil] at hw
        simp at hw
      | cons c t =>
        by_cases hc : isWsPy c
        · rw [wordsPy_ws t hc] at hw
          exact ih t (by simp at hs; omega) w hw
        · rw [wordsPy_word t (by simpa using hc)] at hw
          rcases List.mem_cons.mp hw with h1 | h2
          · subst h1
            refine ⟨by simp, ?_⟩
            intro d hd
            rcases List.mem_cons.mp hd with h3 | h4
            · subst h3
              simpa using hc
            · have := List.takeWhile_subset (p := fun d => !isWsPy d)
                (l := t) h4
              have h5 := List.mem_takeWhile_imp h4
              simpa using h5
          · have hlen : (t.dropWhile (fun d => !isWsPy d)).length ≤ n := by
              have h4 : (t.dropWhile (fun d => !isWsPy d)).length ≤ t.length :=
                (List.dropWhile_suffix _).sublist.length_le
              simp at hs
              omega
            exact ih _ hlen w h2
  exact fun s => main s.length s le_rfl

/-- Python str.removesuffix. -/
def removesuffixPy (suf s : Str) : Str :=
  if suf ≠ [] ∧ suf.isSuffixOf s then s.take (s.length - suf.length) else s

theorem removesuffixPy_isPre (suf s : Str) :
    (removesuffixPy suf s).IsPrefix s := by
  rw [removesuffixPy]
  split
  · exact List.take_prefix _ s
  · exact List.prefix_refl s

theorem getD_mem_of_lt (s : Str) (i : Nat) (d : Char)
    (h : i < s.length) : s.getD i d ∈ s := by
  rw [List.getD_eq_getElem s d h]
  exact List.getElem_mem h

/-- Python s.rfind(" ", start): greatest index i with start <= i and
s[i] a space, or -1 when there is none. -/
def pyRfindSpace (s : Str) (start : Nat) : Int :=
  match ((List.range s.length).filter
      (fun i => start ≤ i && s.getD i 'x' = ' ')).getLast? with
  | some i => (i : Int)
  | none => -1

theorem pyRfindSpace_none {s : Str} (start : Nat) (h : ' ' ∉ s) :
    pyRfindSpace s start = -1 := by
  rw [pyRfindSpace]
  have hf : (List.range s.length).filter
      (fun i => start ≤ i && s.getD i 'x' = ' ') = [] := by
    rw [List.filter_eq_nil_iff]
    intro i hi
    simp only [Bool.and_eq_true, decide_eq_true_eq, not_and]
    intro _
    have hlt : i < s.length := List.mem_range.mp hi
    intro hc
    apply h
    rw [← hc]
    exact getD_mem_of_lt s i 'x' hlt
  rw [hf]
  rfl

/-- Regular-expression abstract syntax covering the constructs the program
uses: character classes, concatenation, alternation, greedy and lazy
repetition, and numbered capture groups. -/
inductive RE where
  | eps : RE
  | cls : (Char → Bool) → RE
  | cat : RE → RE → RE
  | alt : RE → RE → RE
  | star : Bool → RE → RE
  | grp : Nat → RE → RE

/-- Structural size of a pattern, used to bound backtracking fuel. -/
def reSize : RE → Nat
  | .eps => 1
  | .cls _ => 1
  | .cat a b => reSize a + reSize b + 1
  | .alt a b => reSize a + reSize b + 1
  | .star _ a => reSize a + 1
  | .grp _ a => reSize a + 1

/-- Capture environment: group index to captured text, latest entry first. -/
abbrev Caps := List (Nat × Str)

/-- Look up the latest capture of a group (None if it never participated). -/
def capGet (i : Nat) (c : Caps) : Option Str :=
  (c.find? (fun x => x.1 = i)).map Prod.snd

/-- Backtracking matcher in continuation-passing style.  Alternatives are
tried in the Python re order: left alternative first, greedy star prefers
one more iteration, lazy star prefers stopping; star iterations must
consume input (Python stops repeating on an empty iteration).  The first
success in this order is returned, like the re module's match. -/
def mre (fuel : Nat) (re : RE) (s : Str) (caps : Caps)
    (k : Str → Caps → Option (Str × Caps)) : Option (Str × Caps) :=
  match fuel with
  | 0 => none
  | fuel + 1 =>
    match re with
    | .eps => k s caps
    | .cls p =>
      match s with
      | [] => none
      | c :: t => if p c then k t caps else none
    | .cat a b => mre fuel a s caps (fun t c2 => mre fuel b t c2 k)
    | .alt a b => (mre fuel a s caps k).orElse (fun _ => mre fuel b s caps k)
    | .grp i a => mre fuel a s caps
        (fun t c2 => k t ((i, s.take (s.length - t.length)) :: c2))
    | .star g a =>
      let rep := fun _ : Unit => mre fuel a s caps (fun t c2 =>
        if t.length < s.length then mre fuel (.star g a) t c2 k else none)
      let fin := fun _ : Unit => k s caps
      if g then (rep ()).orElse fin else (fin ()).orElse rep

/-- Fuel that comfortably bounds the backtracking depth of the patterns in
this program (depth is at most pattern size times input length). -/
def reFuel (re : RE) (s : Str) : Nat := (reSize re + 2) * (s.length + 2) + 2

/-- Match the pattern at the start of s; return consumed length and the
captures of the first match in backtracking order (Python re.match). -/
def matchAt (re : RE) (s : Str) : Option (Nat × Caps) :=
  (mre (reFuel re s) re s [] (fun t c => some (t, c))).map
    (fun x => (s.length - x.1.length, x.2))

/-- Scan for the leftmost match (Python re.search): returns the position,
consumed length and captures. -/
def reSearchGo (re : RE) (s : Str) (pos : Nat) : Option (Nat × Nat × Caps) :=
  match matchAt re s with
  | some (k, caps) => some (pos, k, caps)
  | none =>
    match s with
    | [] => none
    | _ :: t => reSearchGo re t (pos + 1)

def reSearch (re : RE) (s : Str) : Option (Nat × Nat × Caps) :=
  reSearchGo re s 0

/-- Length of the match of re at the start of s, zero when there is none.
The patterns this program substitutes or splits by never match the empty
string, so a zero here always means no match. -/
def matchLen (re : RE) (s : Str) : Nat :=
  ((matchAt re s).map Prod.fst).getD 0

/-- Python re.sub: replace every leftmost non-overlapping match by rep. -/
def reSubGo (re : RE) (rep : Str) : Nat → Str → Str
  | 0, _ => []
  | _ + 1, [] => []
  | fuel + 1, c :: t =>
    if matchLen re (c :: t) = 0 then c :: reSubGo re rep fuel t
    else rep ++ reSubGo re rep fuel (t.drop (matchLen re (c :: t) - 1))

def reSub (re : RE) (rep : Str) (s : Str) : Str := reSubGo re rep s.length s

theorem reSubGo_fuel (re : RE) (rep : Str) :
    ∀ (n : Nat) (s : Str), s.length ≤ n → ∀ f1 f2, s.length ≤ f1 →
      s.length ≤ f2 → reSubGo re rep f1 s = reSubGo re rep f2 s := by
  intro n
  induction n with
  | zero =>
    intro s hs f1 f2 _ _
    have hs0 : s = [] := List.length_eq_zero.mp (Nat.le_zero.mp hs)
    subst hs0
    cases f1 <;> cases f2 <;> rfl
  | succ n ih =>
    intro s hs f1 f2 h1 h2
    cases s with
    | nil => cases f1 <;> cases f2 <;> rfl
    | cons c t =>
      simp only [List.length_cons] at hs h1 h2
      cases f1 with
      | zero => omega
      | succ g1 =>
        cases f2 with
        | zero => omega
        | succ g2 =>
          rw [reSubGo, reSubGo]
          by_cases hk : matchLen re (c :: t) = 0
          · rw [if_pos hk, if_pos hk, ih t (by omega) g1 g2 (by omega)
              (by omega)]
          · have hd : (t.drop (matchLen re (c :: t) - 1)).length ≤
                t.length := by simp
            rw [if_neg hk, if_neg hk,
              ih (t.drop (matchLen re (c :: t) - 1)) (by omega) g1 g2
                (by omega) (by omega)]

theorem reSub_nil (re : RE) (rep : Str) : reSub re rep [] = [] := rfl

theorem reSub_cons (re : RE) (rep : Str) (c : Char) (t : Str) :
    reSub re rep (c :: t) =
      if matchLen re (c :: t) = 0 then c :: reSub re rep t
      else rep ++ reSub re rep (t.drop (matchLen re (c :: t) - 1)) := by
  rw [reSub, List.length_cons, reSubGo]
  by_cases hk : matchLen re (c :: t) = 0
  · rw [if_pos hk, if_pos hk]
    rfl
  · rw [if_neg hk, if_neg hk, reSub,
      reSubGo_fuel re rep t.length (t.drop (matchLen re (c :: t) - 1))
        (by simp) t.length (t.drop (matchLen re (c :: t) - 1)).length
        (by simp) le_rfl]

/-- Python re.split: the pieces of s between leftmost non-overlapping
matches, empty pieces kept. -/
def reSplitGo (re : RE) : Nat → Str → Str → List Str
  | 0, cur, _ => [cur.reverse]
  | _ + 1, cur, [] => [cur.reverse]
  | fuel + 1, cur, c :: t =>
    if matchLen re (c :: t) = 0 then reSplitGo re fuel (c :: cur) t
    else cur.reverse ::
      reSplitGo re fuel [] (t.drop (matchLen re (c :: t) - 1))

def reSplit (re : RE) (s : Str) : List Str := reSplitGo re s.length [] s

/-- With an empty replacement, substitution deletes characters, so the
result is a sublist of the input. -/
theorem reSub_sublist (re : RE) :
    ∀ (s : Str), (reSub re [] s).Sublist s := by
  have main : ∀ n (s : Str), s.length ≤ n → (reSub re [] s).Sublist s := by
    intro n
    induction n with
    | zero =>
      intro s hs
      have hs0 : s = [] := List.length_eq_zero.mp (Nat.le_zero.mp hs)
      subst hs0
      rw [reSub_nil]
    | succ n ih =>
      intro s hs
      cases s with
      | nil => rw [reSub_nil]
      | cons c t =>
        rw [reSub_cons]
        have htn : t.length ≤ n := by
          simp at hs
          omega
        by_cases hk : matchLen re (c :: t) = 0
        · rw [if_pos hk]
          exact (ih t htn).cons₂ c
        · rw [if_neg hk]
          simp only [List.nil_append]
          have hdl : (t.drop (matchLen re (c :: t) - 1)).length ≤ n := by
            have h2 : (t.drop (matchLen re (c :: t) - 1)).length ≤ t.length :=
              by simp
            omega
          exact ((ih _ hdl).trans (List.drop_sublist _ t)).trans
            (List.sublist_cons_self c t)
  exact fun s => main s.length s le_rfl

/-- Substitution with a replacement of length at most one never lengthens
the string. -/
theorem reSub_length_le (re : RE) (rep : Str) (hrep : rep.length ≤ 1) :
    ∀ (s : Str), (reSub re rep s).length ≤ s.length := by
  have main : ∀ n (s : Str), s.length ≤ n →
      (reSub re rep s).length ≤ s.length := by
    intro n
    induction n with
    | zero =>
      intro s hs
      have hs0 : s = [] := List.length_eq_zero.mp (Nat.le_zero.mp hs)
      subst hs0
      rw [reSub_nil]
    | succ n ih =>
      intro s hs
      cases s with
      | nil => rw [reSub_nil]
      | cons c t =>
        rw [reSub_cons]
        have htn : t.length ≤ n := by
          simp at hs
          omega
        by_cases hk : matchLen re (c :: t) = 0
        · rw [if_pos hk]
          have := ih t htn
          simp
          omega
        · rw [if_neg hk]
          have hdl : (t.drop (matchLen re (c :: t) - 1)).length ≤ n := by
            have h2 : (t.drop (matchLen re (c :: t) - 1)).length ≤ t.length :=
              by simp
            omega
          have h3 := ih _ hdl
          have h4 : (t.drop (matchLen re (c :: t) - 1)).length ≤ t.length :=
            by simp
          simp only [List.length_append, List.length_cons]
          omega
  exact fun s => main s.length s le_rfl

/-- Every character of a substitution output comes from the input or the
replacement text. -/
theorem reSub_chars (re : RE) (rep : Str) :
    ∀ (s : Str), ∀ c ∈ reSub re rep s, c ∈ s ∨ c ∈ rep := by
  have main : ∀ n (s : Str), s.length ≤ n →
      ∀ c ∈ reSub re rep s, c ∈ s ∨ c ∈ rep := by
    intro n
    induction n with
    | zero =>
      intro s hs c hc
      have hs0 : s = [] := List.length_eq_zero.mp (Nat.le_zero.mp hs)
      subst hs0
      rw [reSub_nil] at hc
      simp at hc
    | succ n ih =>
      intro s hs d hd
      cases s with
      | nil =>
        rw [reSub_nil] at hd
        simp at hd
      | cons c t =>
        rw [reSub_cons] at hd
        have htn : t.length ≤ n := by
          simp at hs
          omega
        by_cases hk : matchLen re (c :: t) = 0
        · rw [if_pos hk] at hd
          rcases List.mem_cons.mp hd with h1 | h2
          · exact Or.inl (by simp [h1])
          · rcases ih t htn d h2 with h3 | h4
            · exact Or.inl (by simp [h3])
            · exact Or.inr h4
        · rw [if_neg hk] at hd
          rcases List.mem_append.mp hd with h1 | h2
          · exact Or.inr h1
          · have hdl : (t.drop (matchLen re (c :: t) - 1)).length ≤ n := by
              have h5 : (t.drop (matchLen re (c :: t) - 1)).length ≤ t.length :=
                by simp
              omega
            rcases ih _ hdl d h2 with h3 | h4
            · exact Or.inl (by
                have h6 : d ∈ t := List.mem_of_mem_drop h3
                simp [h6])
            · exact Or.inr h4
  exact fun s => main s.length s le_rfl

def lit1 (c : Char) : RE := .cls (fun d => d = c)

def litS (s : String) : RE :=
  s.data.foldr (fun c acc => .cat (lit1 c) acc) .eps

/-- Case-insensitive literal (re.IGNORECASE). -/
def litCI (s : String) : RE :=
  s.data.foldr (fun c acc =>
    .cat (.cls (fun d => d.toLower = c.toLower)) acc) .eps

def altL : List RE → RE
  | [] => .cls (fun _ => false)
  | [r] => r
  | r :: rs => .alt r (altL rs)

def reOpt (a : RE) : RE := .alt a .eps

def rePlus (a : RE) : RE := .cat a (.star true a)

def wsC : RE := .cls isWsPy
def nwsC : RE := .cls (fun c => !isWsPy c)
def nonWordC : RE := .cls (fun c => !isWordPy c)
def dotC : RE := .cls (fun c => c != '\n')
def digitDotC : RE := .cls (fun c => c.isDigit || c = '.')
def lowerC : RE := .cls Char.isLower
def alphaC : RE := .cls Char.isAlpha
def alphaWsC : RE := .cls (fun c => c.isAlpha || isWsPy c)

/-- LinkedInJobNameRegex.SLASH: whitespace-padded slash. -/
def slashRE : RE := .cat (.star true wsC) (.cat (lit1 '/') (.star true wsC))

def boundSymC : RE := .cls (fun c =>
  c = '-' || c = ',' || c = ':' || c = ';' || c = '@' || c = '(' || c = ')')

/-- LinkedInJobNameRegex.BOUND: section delimiter symbols with optional
surrounding whitespace. -/
def boundRE : RE :=
  .cat (.star true wsC) (.cat (rePlus boundSymC) (.star true wsC))

/-- LinkedInJobNameRegex.TITLE: a job-title noun, group 0. -/
def titleRE : RE :=
  .grp 0 (.cat (altL [litS ("Dev"), litS ("Eng"), litS ("Analy"),
    litS ("Scientist"), litS ("Consultant"), litS ("Architect"),
    litS ("Programmer")]) (.star true lowerC))

/-- LinkedInJobNameRegex.EMAIL_SUBJECT with named groups verb=0, name=1,
company=2 (re.X whitespace in the source pattern is insignificant). -/
def subjectRE : RE :=
  .cat (.cls (fun c => c = 'Y' || c = 'y'))
  (.cat (litS ("ou"))
  (.cat (reOpt (.cat (lit1 'r') (.cat wsC (.cat (litS ("application")) wsC))))
  (.cat (.star true (.cat (reOpt (litS ("was")))
    (.cat (rePlus wsC) (.cat (.grp 0 (.star true nwsC)) (rePlus wsC)))))
  (.cat (rePlus (altL [litS ("to"), litS ("by"), litS ("for")]))
  (.cat (.star true wsC)
  (.cat (.star true (.cat (.grp 1 (.star false dotC))
    (.cat (rePlus wsC) (.cat (litS ("at")) (rePlus wsC)))))
  (.grp 2 (.star true dotC))))))))

/-- LinkedInJobNameRegex.EMAIL_APP_DATE with named groups delta=0, unit=1,
date=2. -/
def appDateRE : RE :=
  .cat (litS ("Applied"))
  (.cat (.star true (.cat (lit1 ':')
    (.cat (.star true wsC)
    (.cat (.grp 0 (rePlus digitDotC))
    (.cat (.star true wsC)
    (.cat (.grp 1 (rePlus nwsC))
    (.cat (.star true wsC) (litS ("ago")))))))))
  (.star true (.cat (.star true wsC)
    (.cat (litS ("on"))
    (.cat (.star true wsC) (.grp 2 (.star true dotC)))))))

/-- LinkedInJobNameRegex.build_pattern: SPECIAL, SEP, then the term
repeated (re.IGNORECASE). -/
def specialSep (t : RE) : RE :=
  .cat (.star true (.cls (fun c => !isWsPy c && !isWordPy c)))
    (.cat (.star true nonWordC) (rePlus t))

def fnWords : RE :=
  .star true (.cat wsC (.cat (altL [litCI ("of"), litCI ("or")]) wsC))

def term1 : RE := specialSep (altL [litCI ("W2"), litCI ("Only"),
  litCI ("No"), litCI ("H1b")])

def term2 : RE := specialSep (.cat (altL [litCI ("Immediate"),
  litCI ("Urgen"), litCI ("Requir"), litCI ("Need")])
  (.cat (.star true alphaC) fnWords))

def term3 : RE := specialSep (altL [litCI ("100%"), litCI ("Remote")])

def term4 : RE := specialSep (altL [litCI ("Only"),
  .cat alphaC (.cat alphaC (.cat alphaC (.cat alphaC
    (.cat wsC (litCI ("Time"))))))])

def term5 : RE := specialSep (altL [litCI ("Opening"),
  litCI ("Opportunity"), litCI ("Job"), litCI ("Position")])

def term6 : RE := specialSep (rePlus (.cat (rePlus (litCI ("Contract")))
  (.star true alphaWsC)))

/-- The LinkedInJobNameRegex instance: the six noise-term patterns in
TERMS order. -/
def termPatterns : List RE := [term1, term2, term3, term4, term5, term6]

/-- LinkedInJobNameRegex.normalize: tighten spaces around slashes, then
strip the maximal leading run of characters that are neither word
characters nor an opening parenthesis (anchored START pattern) and the
matching trailing run (anchored END pattern). -/
def normalizePy (s : Str) : Str :=
  let s1 := reSub slashRE ['/'] s
  let s2 := s1.dropWhile (fun c => !isWordPy c && c != '(')
  (s2.reverse.dropWhile (fun c => !isWordPy c && c != ')')).reverse

/-- LinkedInJobNameRegex.remove_from: try each noise pattern in order while
the name is over the limit, accepting a removal only when the result is
nonempty and still contains the keyword to keep. -/
def remove_from_go : List RE → Str → Nat → Str → Str
  | [], name, _, _ => name
  | p :: ps, name, maxLen, butKeep =>
    if name.length ≤ maxLen then name
    else
      remove_from_go ps
        (if reSub p [] name ≠ [] ∧ hasSub butKeep (reSub p [] name)
         then reSub p [] name else name) maxLen butKeep

def remove_from (name : Str) (maxLen : Nat) (butKeep : Str) : Str :=
  remove_from_go termPatterns name maxLen butKeep

/-- Modelled from the spec: gconanpy Abbreviations.abbreviate applies an
ordered table of long-form to short-form substring replacements; like
every reduction step it is guarded by the length limit. -/
def abbreviate (pairs : List (Str × Str)) (name : Str) (maxLen : Nat) :
    Str :=
  if name.length ≤ maxLen then name
  else pairs.foldl (fun s pr => replaceAll pr.1 pr.2 s) name

def abbrCompany : List (Str × Str) :=
  [(str ("Technology"), str ("Tech")), (str ("Solution"), str ("Soln"))]

def abbrJob : List (Str × Str) :=
  [(str ("Senior"), str ("Sr")), (str ("Junior"), str ("Jr"))]

/-- Modelled from the spec: gconanpy Spliterator.spliterate joins the parts
with single spaces and, while the joined string exceeds the length limit
and more than minParts parts remain, removes one part from the popping end
(the front when popFront, matching pop_ix=0, else the back). -/
def spliterateGo (maxLen : Nat) (popFront : Bool) (minParts : Nat) :
    Nat → List Str → Str
  | 0, parts => joinSp parts
  | fuel + 1, parts =>
    if (joinSp parts).length ≤ maxLen ∨ parts.length ≤ minParts then
      joinSp parts
    else
      spliterateGo maxLen popFront minParts fuel
        (if popFront then parts.tail else parts.dropLast)

def spliterate (maxLen : Nat) (popFront : Bool) (minParts : Nat)
    (parts : List Str) : Str :=
  spliterateGo maxLen popFront minParts parts.length parts

theorem spliterateGo_fuel (maxLen : Nat) (popFront : Bool)
    (minParts : Nat) :
    ∀ (n : Nat) (parts : List Str), parts.length ≤ n → ∀ f1 f2,
      parts.length ≤ f1 → parts.length ≤ f2 →
      spliterateGo maxLen popFront minParts f1 parts =
        spliterateGo maxLen popFront minParts f2 parts := by
  intro n
  induction n with
  | zero =>
    intro parts hs f1 f2 _ _
    have hs0 : parts = [] := List.length_eq_zero.mp (Nat.le_zero.mp hs)
    subst hs0
    cases f1 <;> cases f2 <;>
      simp [spliterateGo]
  | succ n ih =>
    intro parts hs f1 f2 h1 h2
    by_cases hc : (joinSp parts).length ≤ maxLen ∨
        parts.length ≤ minParts
    · cases f1 <;> cases f2 <;>
        simp only [spliterateGo, if_pos hc]
    · have hne : parts ≠ [] := by
        intro h0
        subst h0
        rw [not_or] at hc
        exact hc.2 (by simp)
      have hlp : 0 < parts.length := List.length_pos.mpr hne
      cases f1 with
      | zero => omega
      | succ g1 =>
        cases f2 with
        | zero => omega
        | succ g2 =>
          rw [spliterateGo, spliterateGo, if_neg hc, if_neg hc]
          have hpop : (if popFront then parts.tail
              else parts.dropLast).length = parts.length - 1 := by
            cases popFront <;> simp
          rw [ih (if popFront then parts.tail else parts.dropLast)
            (by omega) g1 g2 (by omega) (by omega)]

theorem spliterate_eq (maxLen : Nat) (popFront : Bool) (minParts : Nat)
    (parts : List Str) :
    spliterate maxLen popFront minParts parts =
      if (joinSp parts).length ≤ maxLen ∨ parts.length ≤ minParts then
        joinSp parts
      else
        spliterate maxLen popFront minParts
          (if popFront then parts.tail else parts.dropLast) := by
  by_cases hc : (joinSp parts).length ≤ maxLen ∨ parts.length ≤ minParts
  · rw [if_pos hc, spliterate]
    cases hp : parts.length <;> simp only [spliterateGo, if_pos hc]
  · rw [if_neg hc, spliterate, spliterate]
    have hne : parts ≠ [] := by
      intro h0
      subst h0
      rw [not_or] at hc
      exact hc.2 (by simp)
    cases hp : parts with
    | nil => exact absurd hp hne
    | cons a t =>
      subst hp
      rw [List.length_cons, spliterateGo, if_neg hc]
      have hpop : (if popFront then (a :: t).tail
          else (a :: t).dropLast).length = t.length := by
        cases popFront <;> simp
      rw [spliterateGo_fuel maxLen popFront minParts t.length
        (if popFront then (a :: t).tail else (a :: t).dropLast)
        (by omega) t.length
        (if popFront then (a :: t).tail else (a :: t).dropLast).length
        (by omega) le_rfl]

/-- Modelled from the spec: the get_target search hands spliterate the
first title-keyword match found among the parts. -/
def titleSearch (p : Str) : Option Str :=
  (reSearch titleRE p).bind (fun x => capGet 0 x.2.2)

/-- Modelled from the spec: gconanpy ToString.truncate cuts the string at
the length limit (the program passes an empty suffix). -/
def truncatePy (maxLen : Nat) (s : Str) : Str :=
  if s.length ≤ maxLen then s else s.take maxLen

/-- Python exceptions surfaced by the embedded code. -/
inductive PyErr where
  | valueError : String → PyErr
  | typeError : PyErr
  | attributeError : PyErr
  | assertionError : PyErr
deriving Repr, DecidableEq

/-- Python list.index as an option (raises ValueError when absent). -/
def pyIndex (l : List Str) (x : Str) : Option Nat :=
  l.findIdx? (fun w => w = x)

/-- LinkedInJobDetailParser.UNNEEDED (LinkedInJob.py line 150). -/
def UNNEEDED : List Str :=
  [str (", Inc."), str ("Inc"), str ("L.L.C"), str ("LLC"), str ("The")]

/-- LinkedInJobDetailParser.shorten_company (LinkedInJob.py 187-202):
strip corporate noise literals, abbreviate, trim words from the end, then
hard-truncate to the limit. -/
def shorten_company (name : Str) (maxLen : Nat := 24) : Str :=
  truncatePy maxLen (spliterate maxLen false 1 (wordsPy
    (abbreviate abbrCompany
      (UNNEEDED.foldl (fun s lit => pyStrip (replaceAll lit [' '] s)) name)
      maxLen)))

/-- The tail of shorten_name (LinkedInJob.py lines 225-229): trim words
from the front, normalize, strip, drop a trailing period or plural s, and
hard-truncate after the last space found from position length minus the
limit onwards. -/
def shorten_finish (maxLen : Nat) (name4 : Str) : Str :=
  let name5 := spliterate maxLen true 1 (wordsPy name4)
  let name6 := removesuffixPy ['s']
    (removesuffixPy ['.'] (pyStrip (normalizePy name5)))
  if name6.length > maxLen
    then name6.take ((pyRfindSpace name6 (name6.length - maxLen)
      + 1).toNat)
    else name6

/-- The title noun of line 219: group of the first TITLE match among the
BOUND-split sections, empty when none is found. -/
def titleNounOf (parts : List Str) : Str :=
  (parts.findSome? titleSearch).getD []

/-- The name after sections were trimmed from the front, noise terms
removed and the job abbreviations applied (lines 216-221). -/
def name3Of (maxLen : Nat) (parts : List Str) : Str :=
  abbreviate abbrJob
    (remove_from (spliterate maxLen true 1 parts) maxLen
      (titleNounOf parts)) maxLen

/-- title_noun_pos of line 223: index of the title noun among the words
plus one, or 1 when no title noun was found; None encodes the ValueError
that list.index raises when the noun is not a whole word. -/
def posOf (maxLen : Nat) (parts : List Str) : Option Nat :=
  if titleNounOf parts ≠ [] then
    (pyIndex (wordsPy (name3Of maxLen parts))
      (titleNounOf parts)).map (fun i => i + 1)
  else some 1

/-- Lines 222-229 applied to the BOUND-split sections: look up the title
position and run the end trim and the finishing stage. -/
def shorten_rest (maxLen : Nat) (parts : List Str) : Except PyErr Str :=
  match posOf maxLen parts with
  | none => .error (.valueError "substring not found")
  | some pos =>
    .ok (shorten_finish maxLen (spliterate maxLen false pos
      (wordsPy (name3Of maxLen parts))))

/-- LinkedInJobDetailParser.shorten_name (LinkedInJob.py 204-230).  The
words.index call raises ValueError when the title noun is not a whole word
of the reduced name, hence the exception monad. -/
def shorten_name (name : Str) (maxLen : Nat := 30) : Except PyErr Str :=
  if name.length ≤ maxLen then .ok name
  else shorten_rest maxLen (reSplit boundRE (pyStrip name))

/-- Whatever shorten_rest returns successfully went through the finishing
stage. -/
theorem shorten_rest_ok {maxLen : Nat} {parts : List Str} {r : Str}
    (h : shorten_rest maxLen parts = .ok r) :
    ∃ s, r = shorten_finish maxLen s := by
  rw [shorten_rest] at h
  cases hX : posOf maxLen parts with
  | none =>
    rw [hX] at h
    cases h
  | some pos =>
    rw [hX] at h
    exact ⟨spliterate maxLen false pos (wordsPy (name3Of maxLen parts)),
      (Except.ok.inj h).symm⟩

theorem seamCond_of_check {q r : Str}
    (h : q.tails.all (fun t => t.isEmpty ||
      (!t.isPrefixOf r && !r.isPrefixOf t)) = true) :
    ∀ t, t.IsSuffix q → t ≠ [] → ¬ t.IsPrefix r ∧ ¬ r.IsPrefix t := by
  intro t hts htne
  have ht : t ∈ q.tails := (List.mem_tails t q).mpr hts
  have h2 := List.all_eq_true.mp h t ht
  simp only [Bool.or_eq_true, Bool.and_eq_true, Bool.not_eq_true',
    List.isEmpty_iff] at h2
  rcases h2 with h3 | ⟨h4, h5⟩
  · exact absurd h3 htne
  · constructor
    · intro hc
      rw [← List.isPrefixOf_iff_prefix] at hc
      rw [hc] at h4
      cases h4
    · intro hc
      rw [← List.isPrefixOf_iff_prefix] at hc
      rw [hc] at h5
      cases h5

theorem crossCond_of_check {q r : Str}
    (h : q.inits.all (fun q1 => q1.isEmpty || q1 == q ||
      !q1.isSuffixOf r) = true) :
    ∀ q1 q2, q = q1 ++ q2 → q1 ≠ [] → q2 ≠ [] → ¬ q1.IsSuffix r := by
  intro q1 q2 hq hn1 hn2 hsuf
  have hq1 : q1 ∈ q.inits := (List.mem_inits q1 q).mpr ⟨q2, hq.symm⟩
  have h2 := List.all_eq_true.mp h q1 hq1
  simp only [Bool.or_eq_true, beq_iff_eq, Bool.not_eq_true',
    List.isEmpty_iff] at h2
  rcases h2 with (h3 | h3) | h4
  · exact hn1 h3
  · subst h3
    have : q2 = [] := by
      have h5 := hq
      conv_lhs at h5 => rw [← List.append_nil q1]
      exact (List.append_cancel_left h5).symm
    exact hn2 this
  · rw [← List.isSuffixOf_iff_suffix] at hsuf
    rw [hsuf] at h4
    cases h4

theorem notOccurs_of_check {q r : Str} (h : hasSub q r = false) :
    ¬ occursIn q r := by
  rw [← hasSub_iff]
  simp [h]

/-- No-creation instance with decidable side checks on the concrete
literal and replacement. -/
theorem replaceAll_no_create_dec (p r q : Str) (hp : p ≠ []) (hq : q ≠ [])
    (h1 : q.tails.all (fun t => t.isEmpty ||
      (!t.isPrefixOf r && !r.isPrefixOf t)) = true)
    (h2 : hasSub q r = false)
    (h3 : q.inits.all (fun q1 => q1.isEmpty || q1 == q ||
      !q1.isSuffixOf r) = true) :
    ∀ s, occursIn q (replaceAll p r s) → occursIn q s :=
  replaceAll_no_create p r q hp hq (seamCond_of_check h1)
    (notOccurs_of_check h2) (crossCond_of_check h3)

/-- Replacing any literal by a single space cannot create a space-free
string. -/
theorem replaceAll_no_create_space (p q : Str) (hp : p ≠ []) (hq : q ≠ [])
    (hs : ' ' ∉ q) :
    ∀ s, occursIn q (replaceAll p [' '] s) → occursIn q s := by
  apply replaceAll_no_create p [' '] q hp hq
  · intro t hts htne
    constructor
    · intro hc
      cases t with
      | nil => exact htne rfl
      | cons tc tt =>
        rcases hc with ⟨z, hz⟩
        have h5 : tc = ' ' := by simpa using congrArg List.head? hz
        exact hs (hts.subset (by simp [h5]))
    · intro hc
      cases t with
      | nil => exact htne rfl
      | cons tc tt =>
        rcases hc with ⟨z, hz⟩
        have h5 : ' ' = tc := by simpa using congrArg List.head? hz
        exact hs (hts.subset (by simp [← h5]))
  · intro hocc
    rcases hocc with ⟨x, y, hxy⟩
    have h5 : q.length ≤ 1 := by
      have h6 := congrArg List.length hxy
      simp only [List.length_append, List.length_cons, List.length_nil]
        at h6
      omega
    cases q with
    | nil => exact hq rfl
    | cons qc qt =>
      have h7 : qt = [] := by
        simp only [List.length_cons] at h5
        exact List.length_eq_zero.mp (by omega)
      subst h7
      have h8 : x = [] := by
        have h6 := congrArg List.length hxy
        simp only [List.length_append, List.length_cons, List.length_nil]
          at h6
        exact List.length_eq_zero.mp (by omega)
      subst h8
      have h9 : qc = ' ' := by simpa using congrArg List.head? hxy.symm
      exact hs (by simp [h9])
  · intro q1 q2 hq12 hn1 hn2 hsuf
    rcases hsuf with ⟨w, hw⟩
    cases q1 with
    | nil => exact hn1 rfl
    | cons qc qt =>
      have h5 : qt = [] ∧ w = [] := by
        have h6 := congrArg List.length hw
        simp only [List.length_append, List.length_cons, List.length_nil]
          at h6
        constructor
        · exact List.length_eq_zero.mp (by omega)
        · exact List.length_eq_zero.mp (by omega)
      have h9 : qc = ' ' := by
        rcases h5 with ⟨h7, h8⟩
        subst h7
        subst h8
        simpa using congrArg List.head? hw
      apply hs
      rw [hq12, h9]
      simp

/-- Transfer of an occurrence backwards through pyStrip. -/
theorem occursIn_of_strip {q s : Str} (h : occursIn q (pyStrip s)) :
    occursIn q s := occursIn_trans h (pyStrip_occurs s)

/-- spliterate returns the join of a subcollection of the parts, either
within the length limit or reduced to at most minParts parts. -/
theorem spliterate_spec (maxLen : Nat) (popFront : Bool) (minParts : Nat) :
    ∀ parts, ∃ parts2,
      spliterate maxLen popFront minParts parts = joinSp parts2 ∧
      (∀ w ∈ parts2, w ∈ parts) ∧
      ((joinSp parts2).length ≤ maxLen ∨ parts2.length ≤ minParts) := by
  have main : ∀ n (parts : List Str), parts.length ≤ n → ∃ parts2,
      spliterate maxLen popFront minParts parts = joinSp parts2 ∧
      (∀ w ∈ parts2, w ∈ parts) ∧
      ((joinSp parts2).length ≤ maxLen ∨ parts2.length ≤ minParts) := by
    intro n
    induction n with
    | zero =>
      intro parts hlen
      have h0 : parts = [] := List.length_eq_zero.mp (Nat.le_zero.mp hlen)
      subst h0
      rw [spliterate_eq, if_pos (Or.inr (by simp))]
      exact ⟨[], rfl, by simp, Or.inr (by simp)⟩
    | succ n ih =>
      intro parts hlen
      by_cases hc : (joinSp parts).length ≤ maxLen ∨
          parts.length ≤ minParts
      · rw [spliterate_eq, if_pos hc]
        exact ⟨parts, rfl, fun w hw => hw, hc⟩
      · rw [spliterate_eq, if_neg hc]
        rw [not_or] at hc
        have hne : parts ≠ [] := by
          intro h0
          subst h0
          simp at hc
        cases popFront with
        | false =>
          rw [if_neg Bool.false_ne_true]
          have hlen2 : parts.dropLast.length ≤ n := by
            have h2 : parts.dropLast.length = parts.length - 1 := by simp
            have h3 : 0 < parts.length := List.length_pos.mpr hne
            omega
          rcases ih parts.dropLast hlen2 with ⟨p2, hp2, hmem, hlim⟩
          refine ⟨p2, hp2, fun w hw => ?_, hlim⟩
          exact List.dropLast_subset parts (hmem w hw)
        | true =>
          rw [if_pos rfl]
          have hlen2 : parts.tail.length ≤ n := by
            have h2 : parts.tail.length = parts.length - 1 := by simp
            have h3 : 0 < parts.length := List.length_pos.mpr hne
            omega
          rcases ih parts.tail hlen2 with ⟨p2, hp2, hmem, hlim⟩
          refine ⟨p2, hp2, fun w hw => ?_, hlim⟩
          have h4 := hmem w hw
          cases parts with
          | nil => simp at h4
          | cons a t => exact List.mem_cons_of_mem a h4
  exact fun parts => main parts.length parts le_rfl

/-- spliterate leaves an already-short join unchanged. -/
theorem spliterate_id {maxLen : Nat} {parts : List Str}
    (popFront : Bool) (minParts : Nat)
    (h : (joinSp parts).length ≤ maxLen) :
    spliterate maxLen popFront minParts parts = joinSp parts := by
  rw [spliterate_eq, if_pos (Or.inl h)]

theorem normalizePy_length (s : Str) :
    (normalizePy s).length ≤ s.length := by
  have h1 : (reSub slashRE ['/'] s).length ≤ s.length :=
    reSub_length_le slashRE ['/'] (by simp) s
  have h2 : ((reSub slashRE ['/'] s).dropWhile
      (fun c => !isWordPy c && c != '(')).length ≤
      (reSub slashRE ['/'] s).length :=
    (List.dropWhile_suffix _).sublist.length_le
  have h3 := (List.dropWhile_suffix (l := ((reSub slashRE ['/'] s).dropWhile
      (fun c => !isWordPy c && c != '(')).reverse)
      (fun c => !isWordPy c && c != ')')).sublist.length_le
  rw [normalizePy]
  simp only [List.length_reverse]
  simp only [List.length_reverse] at h3
  omega

theorem normalizePy_chars (s : Str) :
    ∀ c ∈ normalizePy s, c ∈ s ∨ c = '/' := by
  intro c hc
  rw [normalizePy] at hc
  simp only [List.mem_reverse] at hc
  have h1 := (List.dropWhile_suffix
    (fun c => !isWordPy c && c != ')')).subset hc
  simp only [List.mem_reverse] at h1
  have h2 := (List.dropWhile_suffix
    (fun c => !isWordPy c && c != '(')).subset h1
  rcases reSub_chars slashRE ['/'] s c h2 with h3 | h4
  · exact Or.inl h3
  · exact Or.inr (by simpa using h4)

theorem noWs_normalizePy {s : Str} (h : noWs s) : noWs (normalizePy s) := by
  intro c hc
  rcases normalizePy_chars s c hc with h1 | h2
  · exact h c h1
  · subst h2
    rfl

theorem pyStrip_noWs_id {s : Str} (h : noWs s) : pyStrip s = s := by
  have hdw : ∀ (l : Str), noWs l → l.dropWhile (fun c => isWsPy c) = l := by
    intro l hl
    cases l with
    | nil => rfl
    | cons c t => exact List.dropWhile_cons_of_neg (by simp [hl c (by simp)])
  rw [pyStrip, hdw s h, hdw s.reverse (fun c hc => h c (by simpa using hc))]
  simp

theorem noWs_of_isPre {a s : Str} (hp : a.IsPrefix s) (h : noWs s) :
    noWs a := fun c hc => h c (hp.subset hc)

theorem noWs_take {s : Str} (n : Nat) (h : noWs s) : noWs (s.take n) :=
  noWs_of_isPre (List.take_prefix n s) h

theorem noWs_no_space {s : Str} (h : noWs s) : ' ' ∉ s := by
  intro hc
  have := h ' ' hc
  simp [isWsPy] at this

theorem noWs_of_subset {a s : Str} (hsub : ∀ c ∈ a, c ∈ s) (h : noWs s) :
    noWs a := fun c hc => h c (hsub c hc)

theorem normalizePy_nil : normalizePy [] = [] := by
  rw [normalizePy, reSub_nil]
  simp

/-- The final stage of shorten_name always fits the length limit: either
the front-trimming already got within budget (and the later steps only
shrink), or a single whitespace-free word remains, in which case the hard
truncation finds no space and returns the empty string. -/
theorem shorten_finish_le (maxLen : Nat) (s : Str) :
    (shorten_finish maxLen s).length ≤ maxLen := by
  rw [shorten_finish]
  rcases spliterate_spec maxLen true 1 (wordsPy s) with
    ⟨ws2, hsp, hmem, hlim⟩
  rw [hsp]
  have hlen6 : (removesuffixPy ['s'] (removesuffixPy ['.']
      (pyStrip (normalizePy (joinSp ws2))))).length ≤
      (joinSp ws2).length := by
    have h1 := normalizePy_length (joinSp ws2)
    have h2 := (pyStrip_sublist (normalizePy (joinSp ws2))).length_le
    have h3 := (removesuffixPy_isPre ['.']
      (pyStrip (normalizePy (joinSp ws2)))).sublist.length_le
    have h4 := (removesuffixPy_isPre ['s'] (removesuffixPy ['.']
      (pyStrip (normalizePy (joinSp ws2))))).sublist.length_le
    omega
  rcases hlim with hA | hB
  · have hng : ¬ (removesuffixPy ['s'] (removesuffixPy ['.']
        (pyStrip (normalizePy (joinSp ws2))))).length > maxLen := by omega
    rw [if_neg hng]
    omega
  · have hnws : noWs (joinSp ws2) := by
      cases ws2 with
      | nil =>
        intro c hc
        rw [joinSp] at hc
        simp at hc
      | cons w vs =>
        cases vs with
        | nil =>
          rw [joinSp]
          exact (wordsPy_good s w (hmem w (by simp))).2
        | cons v vs2 =>
          exfalso
          simp at hB
    have hsub : ∀ c ∈ removesuffixPy ['s'] (removesuffixPy ['.']
        (pyStrip (normalizePy (joinSp ws2)))),
        c ∈ normalizePy (joinSp ws2) := by
      intro c hc
      have hc2 := (removesuffixPy_isPre ['s'] (removesuffixPy ['.']
        (pyStrip (normalizePy (joinSp ws2))))).subset hc
      have hc3 := (removesuffixPy_isPre ['.']
        (pyStrip (normalizePy (joinSp ws2)))).subset hc2
      exact (pyStrip_sublist (normalizePy (joinSp ws2))).subset hc3
    have hnws6 : noWs (removesuffixPy ['s'] (removesuffixPy ['.']
        (pyStrip (normalizePy (joinSp ws2))))) :=
      noWs_of_subset hsub (noWs_normalizePy hnws)
    by_cases h6 : (removesuffixPy ['s'] (removesuffixPy ['.']
        (pyStrip (normalizePy (joinSp ws2))))).length > maxLen
    · rw [if_pos h6]
      rw [pyRfindSpace_none _ (noWs_no_space hnws6)]
      simp
    · rw [if_neg h6]
      omega

/-- Outcome analysis of shorten_name: on success the result fits the
length limit. -/
theorem shorten_name_length_le {name : Str} {maxLen : Nat} {r : Str}
    (h : shorten_name name maxLen = .ok r) : r.length ≤ maxLen := by
  rw [shorten_name] at h
  split at h
  · rename_i hg
    cases h
    exact hg
  · obtain ⟨s, hs⟩ := shorten_rest_ok h
    rw [hs]
    exact shorten_finish_le maxLen s

/-- shorten_name is idempotent: feeding a result back in returns it
unchanged (its length is within the limit, so the guard returns it). -/
theorem shorten_name_idem {name : Str} {maxLen : Nat} {r : Str}
    (h : shorten_name name maxLen = .ok r) :
    shorten_name r maxLen = .ok r := by
  rw [shorten_name, if_pos (shorten_name_length_le h)]

/-- shorten_name returns already-short names unchanged. -/
theorem shorten_name_short_id {name : Str} {maxLen : Nat}
    (h : name.length ≤ maxLen) : shorten_name name maxLen = .ok name := by
  rw [shorten_name, if_pos h]

/-- shorten_company always fits the length limit (final truncation). -/
theorem shorten_company_le (name : Str) (maxLen : Nat) :
    (shorten_company name maxLen).length ≤ maxLen := by
  have h0 : shorten_company name maxLen =
      truncatePy maxLen (spliterate maxLen false 1 (wordsPy
        (abbreviate abbrCompany (UNNEEDED.foldl
          (fun s lit => pyStrip (replaceAll lit [' '] s)) name)
          maxLen))) := rfl
  rw [h0, truncatePy]
  split
  · assumption
  · simp

theorem foldl_id {α β : Type} {f : α → β → α} {a : α} (l : List β)
    (h : ∀ b ∈ l, f a b = a) : l.foldl f a = a := by
  induction l with
  | nil => rfl
  | cons b t ih =>
    rw [List.foldl_cons, h b (by simp)]
    exact ih (fun x hx => h x (by simp [hx]))

/-- After the corporate-noise fold of shorten_company, none of the
space-free noise literals occurs in the string: its own pass removed it
and later passes (which replace by a space) cannot recreate it. -/
theorem company_fold_clean (name : Str) :
    ∀ q ∈ [str ("Inc"), str ("L.L.C"), str ("LLC"), str ("The")],
      ¬ occursIn q
        (UNNEEDED.foldl (fun s lit => pyStrip (replaceAll lit [' '] s))
          name) := by
  intro q hq
  have hexp : UNNEEDED.foldl
      (fun s lit => pyStrip (replaceAll lit [' '] s)) name =
      pyStrip (replaceAll (str ("The")) [' ']
        (pyStrip (replaceAll (str ("LLC")) [' ']
          (pyStrip (replaceAll (str ("L.L.C")) [' ']
            (pyStrip (replaceAll (str ("Inc")) [' ']
              (pyStrip (replaceAll (str (", Inc.")) [' '] name))))))))) := by
    simp only [UNNEEDED, List.foldl_cons, List.foldl_nil]
  rw [hexp]
  fin_cases hq
  · intro hocc
    exact replaceAll_removes (str ("Inc")) (by decide) (by decide) _
      (occursIn_of_strip
        (replaceAll_no_create_space (str ("L.L.C")) (str ("Inc"))
          (by decide) (by decide) (by decide) _
          (occursIn_of_strip
            (replaceAll_no_create_space (str ("LLC")) (str ("Inc"))
              (by decide) (by decide) (by decide) _
              (occursIn_of_strip
                (replaceAll_no_create_space (str ("The")) (str ("Inc"))
                  (by decide) (by decide) (by decide) _
                  (occursIn_of_strip hocc)))))))
  · intro hocc
    exact replaceAll_removes (str ("L.L.C")) (by decide) (by decide) _
      (occursIn_of_strip
        (replaceAll_no_create_space (str ("LLC")) (str ("L.L.C"))
          (by decide) (by decide) (by decide) _
          (occursIn_of_strip
            (replaceAll_no_create_space (str ("The")) (str ("L.L.C"))
              (by decide) (by decide) (by decide) _
              (occursIn_of_strip hocc)))))
  · intro hocc
    exact replaceAll_removes (str ("LLC")) (by decide) (by decide) _
      (occursIn_of_strip
        (replaceAll_no_create_space (str ("The")) (str ("LLC"))
          (by decide) (by decide) (by decide) _
          (occursIn_of_strip hocc)))
  · intro hocc
    exact replaceAll_removes (str ("The")) (by decide) (by decide) _
      (occursIn_of_strip hocc)

/-- The abbreviation table of shorten_company cannot create any of the
noise literals: the inserted short forms Tech and Soln share no seam with
them. -/
theorem company_abbr_clean (s : Str) (L : Nat) (q : Str)
    (hmem : q ∈ [str ("Inc"), str ("L.L.C"), str ("LLC"), str ("The")])
    (h : ¬ occursIn q s) :
    ¬ occursIn q (abbreviate abbrCompany s L) := by
  intro hocc
  rw [abbreviate] at hocc
  split at hocc
  · exact h hocc
  · have hexp : abbrCompany.foldl (fun s pr => replaceAll pr.1 pr.2 s) s =
        replaceAll (str ("Solution")) (str ("Soln"))
          (replaceAll (str ("Technology")) (str ("Tech")) s) := rfl
    rw [hexp] at hocc
    fin_cases hmem
    all_goals
      exact h (replaceAll_no_create_dec (str ("Technology")) (str ("Tech"))
        _ (by decide) (by decide) (by decide) (by decide) (by decide) _
        (replaceAll_no_create_dec (str ("Solution")) (str ("Soln")) _
          (by decide) (by decide) (by decide) (by decide) (by decide) _
          hocc))

/-- A string that the shorten_company pipeline cannot change: free of the
noise literals, strip-invariant, word-join-invariant and within the length
limit. -/
theorem shorten_company_fix (out : Str) (maxLen : Nat)
    (habs : ∀ q ∈ UNNEEDED, ¬ occursIn q out)
    (hstrip : pyStrip out = out)
    (hjoin : joinSp (wordsPy out) = out)
    (hle : out.length ≤ maxLen) :
    shorten_company out maxLen = out := by
  have hfold : UNNEEDED.foldl (fun s lit => pyStrip (replaceAll lit
      [' '] s)) out = out := by
    apply foldl_id
    intro li hli
    rw [replaceAll_id li [' '] out (habs li hli), hstrip]
  have h0 : shorten_company out maxLen =
      truncatePy maxLen (spliterate maxLen false 1 (wordsPy
        (abbreviate abbrCompany (UNNEEDED.foldl
          (fun s lit => pyStrip (replaceAll lit [' '] s)) out)
          maxLen))) := rfl
  rw [h0, hfold, abbreviate, if_pos hle]
  rw [spliterate_id false 1 (by rw [hjoin]; exact hle), hjoin]
  rw [truncatePy, if_pos hle]

/-- shorten_company is idempotent: its output is a fixpoint of the whole
pipeline. -/
theorem shorten_company_idem (name : Str) (maxLen : Nat) :
    shorten_company (shorten_company name maxLen) maxLen =
      shorten_company name maxLen := by
  obtain ⟨ws2, hsp, hmem, hlim⟩ := spliterate_spec maxLen false 1
    (wordsPy (abbreviate abbrCompany (UNNEEDED.foldl
      (fun s lit => pyStrip (replaceAll lit [' '] s)) name) maxLen))
  have h0 : shorten_company name maxLen =
      truncatePy maxLen (joinSp ws2) := by
    have h1 : shorten_company name maxLen =
        truncatePy maxLen (spliterate maxLen false 1 (wordsPy
          (abbreviate abbrCompany (UNNEEDED.foldl
            (fun s lit => pyStrip (replaceAll lit [' '] s)) name)
            maxLen))) := rfl
    rw [h1, hsp]
  have hgood : ∀ w ∈ ws2, w ≠ [] ∧ noWs w := fun w hw =>
    wordsPy_good _ w (hmem w hw)
  have habs2 : ∀ q ∈ [str ("Inc"), str ("L.L.C"), str ("LLC"),
      str ("The")],
      ¬ occursIn q (abbreviate abbrCompany (UNNEEDED.foldl
        (fun s lit => pyStrip (replaceAll lit [' '] s)) name) maxLen) :=
    fun q hq => company_abbr_clean _ maxLen q hq
      (company_fold_clean name q hq)
  have habsJ : ∀ q ∈ [str ("Inc"), str ("L.L.C"), str ("LLC"),
      str ("The")], ¬ occursIn q (joinSp ws2) := by
    intro q hq hocc
    have hqne : q ≠ [] := by fin_cases hq <;> decide
    have hqsp : ' ' ∉ q := by fin_cases hq <;> decide
    obtain ⟨w, hw, hocc2⟩ := occursIn_joinSp_elim hqne hqsp hocc
    exact habs2 q hq (occursIn_trans hocc2 (wordsPy_occurs _ w (hmem w hw)))
  rcases hlim with hA | hB
  · have hout : shorten_company name maxLen = joinSp ws2 := by
      rw [h0, truncatePy, if_pos hA]
    rw [hout]
    apply shorten_company_fix
    · intro q hq
      fin_cases hq
      · intro hocc
        exact habsJ (str ("Inc")) (by simp)
          (occursIn_trans ((hasSub_iff (str ("Inc")) (str (", Inc."))).mp
            (by decide)) hocc)
      · exact habsJ (str ("Inc")) (by simp)
      · exact habsJ (str ("L.L.C")) (by simp)
      · exact habsJ (str ("LLC")) (by simp)
      · exact habsJ (str ("The")) (by simp)
    · exact pyStrip_joinSp hgood
    · rw [wordsPy_joinSp hgood]
    · exact hA
  · cases ws2 with
    | nil =>
      have hout : shorten_company name maxLen = [] := by
        rw [h0]
        have hj : joinSp ([] : List Str) = [] := rfl
        rw [hj, truncatePy]
        simp
      rw [hout]
      apply shorten_company_fix
      · intro q hq hocc
        have hq0 := occursIn_nil_elim hocc
        fin_cases hq <;> exact absurd hq0 (by decide)
      · exact pyStrip_nil
      · rw [wordsPy_nil]
        rfl
      · simp
    | cons w vs =>
      cases vs with
      | cons v vs2 =>
        exfalso
        simp at hB
      | nil =>
        have hjw : joinSp [w] = w := rfl
        have hgw := hgood w (by simp)
        have hout : shorten_company name maxLen = truncatePy maxLen w := by
          rw [h0, hjw]
        rw [hout]
        have houtPre : (truncatePy maxLen w).IsPrefix w := by
          rw [truncatePy]
          split
          · exact List.prefix_refl w
          · exact List.take_prefix _ w
        have hnws : noWs (truncatePy maxLen w) :=
          noWs_of_isPre houtPre hgw.2
        have hleOut : (truncatePy maxLen w).length ≤ maxLen := by
          rw [truncatePy]
          split
          · assumption
          · simp
        apply shorten_company_fix
        · intro q hq hocc
          have hq4 : occursIn q (joinSp [w]) := by
            rw [hjw]
            exact occursIn_trans hocc (occursIn_of_isPre houtPre)
          fin_cases hq
          · exact habsJ (str ("Inc")) (by simp)
              (occursIn_trans ((hasSub_iff (str ("Inc"))
                (str (", Inc."))).mp (by decide)) hq4)
          · exact habsJ (str ("Inc")) (by simp) hq4
          · exact habsJ (str ("L.L.C")) (by simp) hq4
          · exact habsJ (str ("LLC")) (by simp) hq4
          · exact habsJ (str ("The")) (by simp) hq4
        · exact pyStrip_noWs_id hnws
        · by_cases hne : truncatePy maxLen w = []
          · rw [hne, wordsPy_nil]
            rfl
          · rw [wordsPy_single hne hnws]
            rfl
        · exact hleOut

/-- remove_from never loses the keyword: a removal is only accepted when
the keyword still occurs in the shortened string. -/
theorem remove_from_go_keeps : ∀ (ps : List RE) (name : Str) (maxLen : Nat)
    (kw : Str), occursIn kw name →
    occursIn kw (remove_from_go ps name maxLen kw) := by
  intro ps
  induction ps with
  | nil =>
    intro name maxLen kw h
    rw [remove_from_go]
    exact h
  | cons p ps ih =>
    intro name maxLen kw h
    rw [remove_from_go]
    split
    · exact h
    · split
      · rename_i hcond
        exact ih _ maxLen kw
          ((hasSub_iff kw (reSub p [] name)).mp hcond.2)
      · exact ih _ maxLen kw h

/-- Python datetime.date. -/
structure PyDate where
  year : Int
  month : Int
  day : Int
deriving Repr, DecidableEq

/-- Days since 1970-01-01 of a proleptic Gregorian date (the standard
days-from-civil computation); models Python date subtraction. -/
def ordOf (d : PyDate) : Int :=
  let y := if d.month ≤ 2 then d.year - 1 else d.year
  let era := (if y ≥ 0 then y else y - 399) / 400
  let yoe := y - era * 400
  let mp := if d.month > 2 then d.month - 3 else d.month + 9
  let doy := (153 * mp + 2) / 5 + d.day - 1
  let doe := yoe * 365 + yoe / 4 - yoe / 100 + doy
  era * 146097 + doe - 719468

/-- Inverse of ordOf (civil-from-days), for datetime arithmetic. -/
def dateOfOrd (z0 : Int) : PyDate :=
  let z := z0 + 719468
  let era := (if z ≥ 0 then z else z - 146096) / 146097
  let doe := z - era * 146097
  let yoe := (doe - doe / 1460 + doe / 36524 - doe / 146096) / 365
  let y := yoe + era * 400
  let doy := doe - (365 * yoe + yoe / 4 - yoe / 100)
  let mp := (5 * doy + 2) / 153
  let dd := doy - (153 * mp + 2) / 5 + 1
  let mm := mp + (if mp < 10 then 3 else -9)
  ⟨y + (if mm ≤ 2 then 1 else 0), mm, dd⟩

def digitsOf (n : Nat) : Str := Nat.toDigits 10 n

def padZeros (w : Nat) (s : Str) : Str :=
  List.replicate (w - s.length) '0' ++ s

/-- ISO format YYYY-MM-DD (Python date.isoformat for CE years). -/
def isoOfDate (d : PyDate) : Str :=
  padZeros 4 (digitsOf d.year.toNat) ++ '-' ::
    (padZeros 2 (digitsOf d.month.toNat) ++ '-' ::
      padZeros 2 (digitsOf d.day.toNat))

def parseNat (s : Str) : Option Nat :=
  if s ≠ [] ∧ s.all Char.isDigit then
    some (s.foldl (fun a c => a * 10 + (c.toNat - 48)) 0)
  else none

/-- Parse an ISO YYYY-MM-DD date string (the format the program writes
into the date column and feeds to datetime.fromisoformat). -/
def parseIsoDate (s : Str) : Option PyDate :=
  match s.splitOn '-' with
  | [y, m, d] =>
    match parseNat y, parseNat m, parseNat d with
    | some yv, some mv, some dv =>
      if y.length = 4 ∧ m.length = 2 ∧ d.length = 2 ∧ 1 ≤ mv ∧ mv ≤ 12 ∧
          1 ≤ dv ∧ dv ≤ 31 then
        some ⟨yv, mv, dv⟩
      else none
    | _, _, _ => none
  | _ => none

/-- LinkedInJobFromMsg.correct_date (LinkedInJob.py 413-426): replace a
placeholder 1900 year by the send year, and cap the date at today, the
current date at processing time. -/
def correct_date (jobAppDate : PyDate) (msgDate : Option PyDate)
    (today : PyDate) : Str :=
  let d1 := if jobAppDate.year = 1900 then
      (⟨(msgDate.getD today).year, jobAppDate.month, jobAppDate.day⟩ :
        PyDate)
    else jobAppDate
  let d2 := if ordOf d1 - ordOf today > 0 then today else d1
  isoOfDate d2

/-- The date correction as the claim states it (spec wording): a resolved
date strictly after the message send date is clamped to the send date. -/
def correct_date_claim (jobAppDate : PyDate) (msgDate : Option PyDate)
    (today : PyDate) : Str :=
  let d1 := if jobAppDate.year = 1900 then
      (⟨(msgDate.getD today).year, jobAppDate.month, jobAppDate.day⟩ :
        PyDate)
    else jobAppDate
  let msgD := msgDate.getD today
  let d2 := if ordOf d1 - ordOf msgD > 0 then msgD else d1
  isoOfDate d2

/-- Modelled from the spec: gconanpy Regextract.parse runs the pattern
over the string and returns the dict of named groups of the first match,
or None when there is no match. -/
def regexParse (re : RE) (s : Str) : Option Caps :=
  (reSearch re s).map (fun x => x.2.2)

/-- Python float(str) on the numeric literals reachable here (optional
sign, digits with at most one decimal point, at least one digit), kept
exact as a decimal: (mantissa, fractional digits), the value being
mantissa / 10 ^ places.  Anything else raises ValueError (None
result). -/
def pyFloat (s : Str) : Option (Int × Nat) :=
  let t := pyStrip s
  let neg := match t with | c :: _ => c == '-' | [] => false
  let t2 := match t with
    | c :: rest => if c = '+' ∨ c = '-' then rest else t
    | [] => t
  if t2 ≠ [] ∧ t2.all (fun c => c.isDigit || c = '.') ∧
      (t2.filter (fun c => c = '.')).length ≤ 1 ∧ t2.any Char.isDigit then
    let ip := t2.takeWhile Char.isDigit
    let fp := (t2.dropWhile Char.isDigit).drop 1
    let mant : Nat := (ip ++ fp).foldl (fun a c => a * 10 + (c.toNat - 48)) 0
    some (if neg then -(mant : Int) else (mant : Int), fp.length)
  else none

/-- Keyword names dt.timedelta accepts, with the unit's length in
microseconds (timedelta's internal resolution); a key outside this list
raises TypeError. -/
def TIMEDELTA_KEYS : List (Str × Nat) :=
  [(str ("weeks"), 604800000000), (str ("days"), 86400000000),
   (str ("hours"), 3600000000), (str ("minutes"), 60000000),
   (str ("seconds"), 1000000), (str ("milliseconds"), 1000),
   (str ("microseconds"), 1)]

/-- Microseconds per day. -/
def DAY_MICRO : Int := 86400000000

def monthsFull : List (Str × Int) :=
  [(str ("January"), 1), (str ("February"), 2), (str ("March"), 3),
   (str ("April"), 4), (str ("May"), 5), (str ("June"), 6),
   (str ("July"), 7), (str ("August"), 8), (str ("September"), 9),
   (str ("October"), 10), (str ("November"), 11), (str ("December"), 12)]

def monthsAbbr : List (Str × Int) :=
  [(str ("Jan"), 1), (str ("Feb"), 2), (str ("Mar"), 3), (str ("Apr"), 4),
   (str ("May"), 5), (str ("Jun"), 6), (str ("Jul"), 7), (str ("Aug"), 8),
   (str ("Sep"), 9), (str ("Oct"), 10), (str ("Nov"), 11),
   (str ("Dec"), 12)]

def lowerStr (s : Str) : Str := s.map Char.toLower

/-- strptime %B / %b: match a month name (case-insensitively) at the start
of the string, returning its number and the rest. -/
def parseMonthName (table : List (Str × Int)) (s : Str) :
    Option (Int × Str) :=
  table.findSome? (fun pr =>
    if (lowerStr pr.1).isPrefixOf (lowerStr s) then
      some (pr.2, s.drop pr.1.length)
    else none)

/-- strptime %d / %Y: a leading run of digits (1-2 for %d, up to 4 for
%Y), returning the value and the rest. -/
def parseNumRun (maxDigits : Nat) (s : Str) : Option (Int × Str) :=
  let ds := (s.takeWhile Char.isDigit).take maxDigits
  if ds = [] then none
  else some ((ds.foldl (fun a c => a * 10 + ((c.toNat : Int) - 48)) 0),
    s.drop ds.length)

/-- strptime: literal whitespace in the format matches a nonempty
whitespace run. -/
def parseWsRun (s : Str) : Option Str :=
  match s with
  | c :: rest => if isWsPy c then some (rest.dropWhile isWsPy) else none
  | [] => none

def isLeap (y : Int) : Bool :=
  y % 4 = 0 && (y % 100 ≠ 0 || y % 400 = 0)

def daysInMonth (y m : Int) : Int :=
  if m = 2 then (if isLeap y then 29 else 28)
  else if m = 4 ∨ m = 6 ∨ m = 9 ∨ m = 11 then 30
  else 31

/-- dt.datetime.strptime(s, fmt).date() for the formats in
APP_DATE_FORMATS: "Month day" with an optional ", year" suffix, using the
full or abbreviated month-name table; the year defaults to the strptime
placeholder 1900; the whole string must be consumed and the day must be
valid for the month. -/
def strptimeMonthDay (table : List (Str × Int)) (withYear : Bool)
    (s : Str) : Option PyDate :=
  match parseMonthName table s with
  | none => none
  | some (m, r1) =>
    match parseWsRun r1 with
    | none => none
    | some r2 =>
      match parseNumRun 2 r2 with
      | none => none
      | some (d, r3) =>
        match (if withYear then
            match r3 with
            | ',' :: r4 =>
              match parseWsRun r4 with
              | none => none
              | some r5 =>
                match parseNumRun 4 r5 with
                | none => none
                | some (y, r6) => if r6 = [] then some y else none
            | _ => none
          else if r3 = [] then some (1900 : Int) else none) with
        | none => none
        | some y =>
          if 1 ≤ d ∧ d ≤ daysInMonth y m then some ⟨y, m, d⟩ else none

/-- The APP_DATE_FORMATS fallback chain, in source order:
"%B %d, %Y", "%b %d", "%b %d, %Y", "%B %d". -/
def tryAppDateFormats (s : Str) : Option PyDate :=
  match strptimeMonthDay monthsFull true s with
  | some d => some d
  | none =>
    match strptimeMonthDay monthsAbbr false s with
    | some d => some d
    | none =>
      match strptimeMonthDay monthsAbbr true s with
      | some d => some d
      | none => strptimeMonthDay monthsFull false s

/-- LinkedInJobDetailParser.parse_date_from (LinkedInJob.py 152-174).
The relative branch builds dt.timedelta(**{delta: float(unit)}): the
matched delta digits become the keyword and float() is applied to the
unit word, so float("days") etc. raises ValueError before the timedelta
keyword (the digit string) could raise TypeError.
msgDT is the message send datetime in microseconds since the epoch; the
subtraction result's .date() is the floor day. -/
def parse_date_from (s : Str) (msgDT : Int) : Except PyErr (Option PyDate)
    :=
  match regexParse appDateRE s with
  | none => .error .assertionError
  | some caps =>
    match capGet 0 caps, capGet 1 caps with
    | some delta, some unit =>
      match pyFloat unit with
      | none =>
        .error (.valueError ("could not convert string to float"))
      | some f =>
        match TIMEDELTA_KEYS.findSome?
            (fun pr => if pr.1 = delta then some pr.2 else none) with
        | none => .error .typeError
        | some mult =>
          .ok (some (dateOfOrd
            (Int.fdiv (msgDT - f.1 * (mult : Int) / (10 : Int) ^ f.2)
              DAY_MICRO)))
    | _, _ =>
      match capGet 2 caps with
      | some ds => .ok (tryAppDateFormats ds)
      | none => .ok none

/-- parse_date_from as the claim reads (spec wording): "N days ago"
resolves to the message date minus N days, and similarly for the other
units. -/
def parse_date_from_claim (s : Str) (msgDT : Int) :
    Except PyErr (Option PyDate) :=
  match regexParse appDateRE s with
  | none => .error .assertionError
  | some caps =>
    match capGet 0 caps, capGet 1 caps with
    | some delta, some unit =>
      match pyFloat delta with
      | none =>
        .error (.valueError ("could not convert string to float"))
      | some f =>
        match TIMEDELTA_KEYS.findSome?
            (fun pr => if pr.1 = unit then some pr.2 else none) with
        | none => .error .typeError
        | some mult =>
          .ok (some (dateOfOrd
            (Int.fdiv (msgDT - f.1 * (mult : Int) / (10 : Int) ^ f.2)
              DAY_MICRO)))
    | _, _ =>
      match capGet 2 caps with
      | some ds => .ok (tryAppDateFormats ds)
      | none => .ok none

/-- One row of the jobs sheet, restricted to the columns the matcher and
updater touch (COL_NAMES date/company/name/status). -/
structure SheetRow where
  date : Str
  company : Str
  name : Str
  status : Str
deriving Repr, DecidableEq

inductive Col where
  | date : Col
  | company : Col
  | name : Col
  | status : Col
deriving Repr, DecidableEq

def SheetRow.get : SheetRow → Col → Str
  | r, Col.date => r.date
  | r, Col.company => r.company
  | r, Col.name => r.name
  | r, Col.status => r.status

def SheetRow.set : SheetRow → Col → Str → SheetRow
  | r, Col.date, v => ⟨v, r.company, r.name, r.status⟩
  | r, Col.company, v => ⟨r.date, v, r.name, r.status⟩
  | r, Col.name, v => ⟨r.date, r.company, v, r.status⟩
  | r, Col.status, v => ⟨r.date, r.company, r.name, v⟩

/-- A pandas DataFrame of sheet rows: index labels paired with rows. -/
abbrev Df := List (Nat × SheetRow)

/-- df.loc[df[col].isin(vals)]. -/
def isinFilter (df : Df) (c : Col) (vals : List Str) : Df :=
  List.filter (fun r => decide (r.2.get c ∈ vals)) df

/-- The main loop of try_filter_df (LinkedInJob.py 44-61): carries new_df
and prev_df; a single row returns it at once (flag true); an empty new_df
is restored to prev_df, consuming the current filter without applying it;
otherwise the current filter is applied.  Mirrors the source exactly,
including that the restore skips the iteration's own filter. -/
def filtLoop : List (Col × List Str) → Df → Df → Df × Bool
  | [], newDf, _ => (newDf, false)
  | (c, vs) :: rest, newDf, prevDf =>
    if List.length newDf = 1 then (newDf, true)
    else if List.length newDf = 0 then filtLoop rest prevDf prevDf
    else filtLoop rest (isinFilter newDf c vs) newDf

/-- Inner loop of the substring pass (LinkedIn Job.py 63-67): filter by
str.contains for each acceptable value, returning early on one row.
str.contains is regex-based; for the plain-text values used here it is
substring containment. -/
def containsInner (c : Col) : List Str → Df → Df × Bool
  | [], df => (df, false)
  | v :: vs, df =>
    let df2 := List.filter (fun r => hasSub v (r.2.get c)) df
    if List.length df2 = 1 then (df2, true) else containsInner c vs df2

def containsOuter : List (Col × List Str) → Df → Df × Bool
  | [], df => (df, false)
  | (c, vs) :: rest, df =>
    match containsInner c vs df with
    | (df2, true) => (df2, true)
    | (df2, false) => containsOuter rest df2

/-- The substring pass runs only on more than one survivor
(LinkedInJob.py 62). -/
def subPass (filters : List (Col × List Str)) (newDf : Df) : Df × Bool :=
  if List.length newDf > 1 then containsOuter filters newDf
  else (newDf, false)

/-- The tail of try_filter_df after its loop (LinkedInJob.py 62-70): the
early return out of the substring pass, or the final fallback to the
original df when nothing remains. -/
def tfdFinal (df : Df) (filters : List (Col × List Str)) (newDf : Df) :
    Df :=
  cond (subPass filters newDf).2 (subPass filters newDf).1
    (if List.length (subPass filters newDf).1 > 0
      then (subPass filters newDf).1 else df)

/-- try_filter_df (LinkedInJob.py 34-70): the filter loop with its early
return, then the substring pass and the final fallback. -/
def try_filter_df (df : Df) (filters : List (Col × List Str)) : Df :=
  cond (filtLoop filters df df).2 (filtLoop filters df df).1
    (tfdFinal df filters (filtLoop filters df df).1)

/-- The field-filter sequence as the claim reads (spec wording): each
filter narrows by intersection, and a filter that would empty the current
candidate set is skipped, keeping the set narrowed by the earlier filters,
with the sequence continuing at the next filter. -/
def filter_seq_claim (df : Df) (filters : List (Col × List Str)) : Df :=
  filters.foldl (fun d pr =>
    let f := isinFilter d pr.1 pr.2
    if f = ([] : List (Nat × SheetRow)) then d else f) df

/-- The details of a job record used by the matcher: full and shortened
company and name, and the ISO application date. -/
structure JobRec where
  company : Str
  short_company : Str
  name : Str
  short_name : Str
  date : Str
deriving Repr, DecidableEq

/-- LinkedInJob.filter_df_by_detail's acceptable-value set: the full
value, plus the shortened form for company and name (a Python set, so a
coinciding short form collapses; modelled with the full form first). -/
def detailVals (j : JobRec) : Col → List Str
  | Col.company =>
    if j.short_company = j.company then [j.company]
    else [j.company, j.short_company]
  | Col.name =>
    if j.short_name = j.name then [j.name] else [j.name, j.short_name]
  | Col.date => [j.date]
  | Col.status => []

/-- LinkedInJob.filter_df_by_detail (LinkedInJob.py 268-273). -/
def filter_df_by_detail (j : JobRec) (df : Df) (c : Col) : Df :=
  try_filter_df df [(c, detailVals j c)]

/-- Modelled from the spec: gconanpy ReadyChecker re-tests readiness
(here: exactly one row left) before each step and walks the item sequence
until ready or exhausted, as find_row_of_job's with-block does. -/
def readyLoop (j : JobRec) : List Col → Df → Df
  | [], df => df
  | c :: rest, df =>
    if List.length df = 1 then df
    else readyLoop j rest (filter_df_by_detail j df c)

/-- The date tie-break of find_row_of_job (GoogleSheetUpdater.py
281-288): pd.to_datetime over the whole cached date column restricted to
the candidates, the job date via fromisoformat, and the candidates at
minimal absolute distance are kept.  An unparseable date anywhere in the
table raises. -/
def dateTieBreak (j : JobRec) (df0 df : Df) : Except PyErr Df :=
  match parseIsoDate j.date with
  | none => .error (.valueError ("Invalid isoformat string"))
  | some jd =>
    match df0.mapM (fun r => (parseIsoDate (r.2.get Col.date)).map
        (fun d => (r.1, (ordOf d - ordOf jd).natAbs))) with
    | none => .error (.valueError ("Unknown datetime string format"))
    | some allDiffs =>
      let cand := allDiffs.filter
        (fun p => List.any df (fun r => r.1 == p.1))
      let ds := cand.map Prod.snd
      let m := ds.foldr min (ds.headD 0)
      .ok (List.filter
        (fun r => cand.any (fun p => p.1 == r.1 && p.2 == m)) df)

/-- The candidate set find_row_of_job ends up with before its final
exactly-one check: the ReadyChecker filter pass over company, name and
date, then the date tie-break when more than one row remains. -/
def findRowFinalDf (j : JobRec) (df0 : Df) : Except PyErr Df :=
  let df := readyLoop j [Col.company, Col.name, Col.date] df0
  if List.length df > 1 then dateTieBreak j df0 df else .ok df

/-- JobsAppsSheetUpdater.find_row_of_job (GoogleSheetUpdater.py 274-293):
returns the surviving row's label when exactly one row survives, and
raises the single ValueError("Job not found in df") otherwise, whether
zero or several rows remain. -/
def find_row_of_job (j : JobRec) (df0 : Df) : Except PyErr Nat :=
  match findRowFinalDf j df0 with
  | .error e => .error e
  | .ok dfF =>
    match dfF with
    | [r] => .ok r.1
    | _ => .error (.valueError ("Job not found in df"))

/-- df.loc[i, col] for a present label (absent labels do not occur along
the reachable paths). -/
def dfGet : Df → Nat → Col → Str
  | [], _, _ => []
  | r :: t, i, c => if r.1 = i then r.2.get c else dfGet t i c

/-- df.loc[i, col] = v. -/
def dfSet (df : Df) (i : Nat) (c : Col) (v : Str) : Df :=
  df.map (fun r => if r.1 = i then (r.1, r.2.set c v) else r)

/-- gspread.utils.rowcol_to_a1 column letters: repeated base-26 with
letters A-Z and no zero digit. -/
def colLettersGo : Nat → Nat → Str
  | 0, _ => []
  | _, 0 => []
  | fuel + 1, d =>
    let m := d % 26
    let m2 := if m = 0 then 26 else m
    let d2 := if m = 0 then d / 26 - 1 else d / 26
    colLettersGo fuel d2 ++ [Char.ofNat (m2 + 64)]

/-- gspread.utils.rowcol_to_a1: "D4"-style cell addresses. -/
def rowcol_to_a1 (row col : Nat) : Str := colLettersGo col col ++ digitsOf row

/-- The updater state find_row_of_job/update_status_of/send_updates act
on: the cached table, the pending cell updates (A1 range and value) and
the pending new rows (JobsAppsSheetUpdater.__init__, GoogleSheetUpdater.py
236-237). -/
structure Updater where
  df : Df
  updates : List (Str × Str)
  new_rows : List (List Str)
deriving Repr, DecidableEq

/-- The write step of update_status_of (GoogleSheetUpdater.py 296-303)
once the row is located: unless the row's status is already "Rejected",
write the new status into the cached table and queue a batch update for
the status cell.  The status column index 4 is LinkedInJob.COLS["status"]
(resolved through the FancyDict attribute lookup job.cols); the sheet row
is job_row + 2 (header row plus 1-based indexing). -/
def updateAt (u : Updater) (jobRow : Nat) (newStatus : Str) :
    Except PyErr Updater :=
  if dfGet u.df jobRow Col.status ≠ str ("Rejected") then
    .ok ⟨dfSet u.df jobRow Col.status newStatus,
      u.updates ++ [(rowcol_to_a1 (jobRow + 2) 4, newStatus)],
      u.new_rows⟩
  else .ok u

/-- JobsAppsSheetUpdater.update_status_of (GoogleSheetUpdater.py
295-303): locate the row, then apply the guarded write step. -/
def update_status_of (u : Updater) (j : JobRec) (newStatus : Str) :
    Except PyErr Updater :=
  match find_row_of_job j u.df with
  | .error e => .error e
  | .ok jobRow => updateAt u jobRow newStatus

/-- A write operation issued to the Google Sheets backend. -/
inductive SheetOp where
  | batchUpdate : List (Str × Str) → SheetOp
  | insertRows : List (List Str) → Nat → SheetOp
deriving Repr, DecidableEq

/-- JobsAppsSheetUpdater.send_updates (GoogleSheetUpdater.py 305-316):
issue one batch_update when the update queue is non-empty and one
insert_rows when the new-row queue is non-empty, appending to the backend
operation log.  Neither queue is assigned to, so the state comes back
unchanged. -/
def send_updates (u : Updater) (log : List SheetOp)
    (insertRowAt : Nat := 2) : Updater × List SheetOp :=
  let log1 := if u.updates ≠ [] then log ++ [SheetOp.batchUpdate u.updates]
    else log
  let log2 := if u.new_rows ≠ [] then
    log1 ++ [SheetOp.insertRows u.new_rows insertRowAt] else log1
  (u, log2)

/-- The named groups of the subject grammar over the carriage-return-free
subject, as parse_email_subject computes them (LinkedInJob.py 176-185). -/
def subjectGroups (subject : Str) : Option Caps :=
  regexParse subjectRE (replaceAll (str ("\r")) [] subject)

/-- The company extraction of LinkedInJobFromMsg.__init__ (LinkedInJob.py
375-382): self.update(None) raises TypeError when the subject grammar did
not match; on a match, self.company is the company group (which the
grammar always binds, possibly to the empty string) and is passed on to
shorten_company; a match lacking the attribute would raise
AttributeError. -/
def subjectCompany (subject : Str) : Except PyErr Str :=
  match subjectGroups subject with
  | none => .error .typeError
  | some caps =>
    match capGet 2 caps with
    | none => .error .attributeError
    | some c => .ok c

/-- An early return from the filter loop means exactly one row was
left. -/
theorem filtLoop_true_len : ∀ (fs : List (Col × List Str)) (a b : Df),
    (filtLoop fs a b).2 = true → (filtLoop fs a b).1.length = 1 := by
  intro fs
  induction fs with
  | nil =>
    intro a b h
    simp [filtLoop] at h
  | cons p rest ih =>
    intro a b h
    rcases p with ⟨c, vs⟩
    rw [filtLoop] at h ⊢
    by_cases h1 : List.length a = 1
    · rw [if_pos h1] at h ⊢
      exact h1
    · rw [if_neg h1] at h ⊢
      by_cases h0 : List.length a = 0
      · rw [if_pos h0] at h ⊢
        exact ih b b h
      · rw [if_neg h0] at h ⊢
        exact ih _ _ h

/-- An early return from the inner substring loop means exactly one row
was left. -/
theorem containsInner_true_len : ∀ (vs : List Str) (c : Col) (d : Df),
    (containsInner c vs d).2 = true → (containsInner c vs d).1.length = 1
    := by
  intro vs
  induction vs with
  | nil =>
    intro c d h
    simp [containsInner] at h
  | cons v vs ih =>
    intro c d h
    simp only [containsInner] at h ⊢
    by_cases hl :
        List.length (List.filter (fun r => hasSub v (r.2.get c)) d) = 1
    · rw [if_pos hl] at h ⊢
      exact hl
    · rw [if_neg hl] at h ⊢
      exact ih c _ h

/-- An early return from the substring pass means exactly one row was
left. -/
theorem containsOuter_true_len : ∀ (fs : List (Col × List Str)) (d : Df),
    (containsOuter fs d).2 = true → (containsOuter fs d).1.length = 1 := by
  intro fs
  induction fs with
  | nil =>
    intro d h
    simp [containsOuter] at h
  | cons p rest ih =>
    intro d h
    rcases p with ⟨c, vs⟩
    rw [containsOuter] at h ⊢
    rcases hI : containsInner c vs d with ⟨df2, flag⟩
    rw [hI] at h
    cases flag
    · exact ih df2 h
    · have h2 := containsInner_true_len vs c d
      rw [hI] at h2
      exact h2 rfl

theorem SheetRow.get_set_other (r : SheetRow) (c c' : Col) (v : Str)
    (h : c' ≠ c) : (r.set c v).get c' = r.get c' := by
  cases c <;> cases c' <;> first | rfl | exact absurd rfl h

/-- Writing one column leaves every other column of every row as it
was. -/
theorem dfGet_dfSet_other (df : Df) (i i' : Nat) (c c' : Col) (v : Str)
    (h : c' ≠ c) : dfGet (dfSet df i c v) i' c' = dfGet df i' c' := by
  induction df with
  | nil => rfl
  | cons r t ih =>
    rw [dfSet, List.map_cons]
    by_cases hi : r.1 = i
    · rw [if_pos hi, dfGet, dfGet]
      by_cases hi' : r.1 = i'
      · rw [if_pos hi', if_pos hi']
        exact SheetRow.get_set_other r.2 c c' v h
      · rw [if_neg hi', if_neg hi']
        exact ih
    · rw [if_neg hi, dfGet, dfGet]
      by_cases hi' : r.1 = i'
      · rw [if_pos hi', if_pos hi']
      · rw [if_neg hi', if_neg hi']
        exact ih

/-- Sample table used to exercise the matcher below. -/
def rowEx0 : SheetRow :=
  ⟨str ("2025-09-10"), str ("Acme"), str ("Alpha"), str ("Applied")⟩

def rowEx1 : SheetRow :=
  ⟨str ("2025-01-01"), str ("Acme"), str ("Beta"), str ("Applied")⟩

def rowEx2 : SheetRow :=
  ⟨str ("2025-02-02"), str ("Other"), str ("Gamma"), str ("Applied")⟩

def dfEx2 : Df := [(0, rowEx0), (1, rowEx1)]

def dfEx3 : Df := [(0, rowEx0), (1, rowEx1), (2, rowEx2)]

def filtersEx : List (Col × List Str) :=
  [(Col.company, [str ("Acme")]), (Col.name, [str ("Zeta")])]

/-- A record matching no company and no name of the sample table. -/
def jobNoMatch : JobRec :=
  ⟨str ("Nomatch Co"), str ("Nomatch"), str ("Zeta"), str ("Zet"),
    str ("2025-09-12")⟩

/-- A record matching exactly the first sample row. -/
def jobAlpha : JobRec :=
  ⟨str ("Acme"), str ("Acme"), str ("Alpha"), str ("Alpha"),
    str ("2025-09-10")⟩

def updEx : Updater := ⟨dfEx2, [], []⟩

/-- The state update_status_of reaches from updEx for jobAlpha. -/
def updEx' : Updater :=
  ⟨[(0, ⟨str ("2025-09-10"), str ("Acme"), str ("Alpha"),
      str ("Viewed")⟩), (1, rowEx1)],
    [(str ("D2"), str ("Viewed"))], []⟩

/-- A batcher state with both queues non-empty. -/
def updQ : Updater :=
  ⟨[], [(str ("D2"), str ("Viewed"))], [[str ("LinkedIn")]]⟩

/-- A 31-character single word whose prefix matches the TITLE pattern. -/
def kwNameEx : Str := str ("Engwwwwwwwwwwwwwwwwwwwwwwwwwwww")

-- ======================================================================
-- The claims
-- ======================================================================

/-- C1: find_row_of_job's terminal outcomes.  A row index is returned
exactly when one candidate survives the filter passes and the date
tie-break, and every other outcome — zero candidates as well as several —
raises the one ValueError("Job not found in df"); the matcher never picks
among surviving ties.  (The claim's separate "not found whenever zero
rows match company/title" outcome does not exist: the skipped filters
leave the whole table, and the date tie-break alone can then select a
row, as the counterexample shows.) -/
theorem find_row_of_job_outcomes (j : JobRec) (df0 : Df) :
    (∀ i, find_row_of_job j df0 = .ok i →
      ∃ r, findRowFinalDf j df0 = .ok [r] ∧ r.1 = i) ∧
    (∀ l, findRowFinalDf j df0 = .ok l → l.length ≠ 1 →
      find_row_of_job j df0 =
        .error (.valueError ("Job not found in df"))) ∧
    (∀ e, findRowFinalDf j df0 = .error e →
      find_row_of_job j df0 = .error e) := by
  refine ⟨?_, ?_, ?_⟩
  · intro i hi
    rw [find_row_of_job] at hi
    cases hF : findRowFinalDf j df0 with
    | error e =>
      rw [hF] at hi
      exact Except.noConfusion hi
    | ok l =>
      rw [hF] at hi
      cases l with
      | nil => exact Except.noConfusion hi
      | cons a t =>
        cases t with
        | nil => exact ⟨a, rfl, Except.ok.inj hi⟩
        | cons b t2 => exact Except.noConfusion hi
  · intro l hF hlen
    rw [find_row_of_job, hF]
    cases l with
    | nil => rfl
    | cons a t =>
      cases t with
      | nil => exact absurd rfl hlen
      | cons b t2 => rfl
  · intro e hF
    rw [find_row_of_job, hF]

/-- C1 counterexample: a two-row table where no row matches the record's
company or name (full or shortened).  The claim says this raises "not
found"; the code returns row 0, selected purely by date distance. -/
theorem find_row_of_job_counterexample :
    find_row_of_job jobNoMatch dfEx2 = .ok 0 ∧
    (∀ r ∈ dfEx2, r.2.get Col.company ≠ jobNoMatch.company ∧
      r.2.get Col.company ≠ jobNoMatch.short_company ∧
      r.2.get Col.name ≠ jobNoMatch.name ∧
      r.2.get Col.name ≠ jobNoMatch.short_name) :=
  ⟨rfl, by decide⟩

/-- C2: the relative-offset branch of parse_date_from raises ValueError
instead of returning T minus the offset: the timedelta keyword arguments
are built swapped, {delta: float(unit)}, so float("days") is attempted.
The conjuncts record the groups the pattern extracts, the failing float
conversion, that "days" is a valid timedelta keyword worth 86400000000
microseconds, and that the unswapped computation (parse_date_from_claim)
resolves to msgDT minus 3 days, floored to a calendar date. -/
theorem parse_date_from_swapped_kwargs (msgDT : Int) :
    parse_date_from (str ("Applied: 3 days ago")) msgDT =
      .error (.valueError ("could not convert string to float")) ∧
    (regexParse appDateRE (str ("Applied: 3 days ago"))).map
      (fun caps => (capGet 0 caps, capGet 1 caps)) =
      some (some (str ("3")), some (str ("days"))) ∧
    pyFloat (str ("days")) = none ∧
    TIMEDELTA_KEYS.findSome?
      (fun pr => if pr.1 = str ("days") then some pr.2 else none) =
      some 86400000000 ∧
    parse_date_from_claim (str ("Applied: 3 days ago")) msgDT =
      .ok (some (dateOfOrd (Int.fdiv (msgDT - 3 * DAY_MICRO) DAY_MICRO)))
    :=
  ⟨rfl, rfl, rfl, rfl, rfl⟩

/-- C3: what correct_date actually does: the placeholder year 1900 is
replaced by the send year, but a date strictly in the future is clamped
to today — dt.date.today(), the processing date — not to the message
send date. -/
theorem correct_date_clamps_to_today (d : PyDate) (msg : Option PyDate)
    (today : PyDate) :
    correct_date d msg today =
      isoOfDate
        (if ordOf today <
            ordOf (if d.year = 1900 then
              (⟨(msg.getD today).year, d.month, d.day⟩ : PyDate) else d)
          then today
          else if d.year = 1900 then
            (⟨(msg.getD today).year, d.month, d.day⟩ : PyDate) else d) := by
  rw [correct_date]
  simp only [gt_iff_lt, Int.sub_pos]

/-- C3 counterexample: a date after the send date but not after today is
kept as is by the code, while the claim's send-date clamping
(correct_date_claim) would return the send date. -/
theorem correct_date_counterexample :
    ordOf ⟨2025, 9, 15⟩ - ordOf ⟨2025, 9, 10⟩ > 0 ∧
    correct_date ⟨2025, 9, 15⟩ (some ⟨2025, 9, 10⟩) ⟨2025, 9, 20⟩ =
      str ("2025-09-15") ∧
    correct_date_claim ⟨2025, 9, 15⟩ (some ⟨2025, 9, 10⟩) ⟨2025, 9, 20⟩ =
      str ("2025-09-10") ∧
    correct_date ⟨2025, 9, 15⟩ (some ⟨2025, 9, 10⟩) ⟨2025, 9, 20⟩ ≠
      correct_date_claim ⟨2025, 9, 15⟩ (some ⟨2025, 9, 10⟩)
        ⟨2025, 9, 20⟩ := by decide

/-- C4: both shortening functions are idempotent: re-shortening a
shorten_company result returns it unchanged, and feeding a successful
shorten_name result back in returns it unchanged.  (The claim's stronger
"already-short input returned unchanged" holds for shorten_name but not
for shorten_company, whose noise-literal removal runs unguarded — see the
counterexample.) -/
theorem shorten_idempotent (name : Str) (maxLen : Nat) :
    shorten_company (shorten_company name maxLen) maxLen =
      shorten_company name maxLen ∧
    ∀ r, shorten_name name maxLen = .ok r →
      shorten_name r maxLen = .ok r :=
  ⟨shorten_company_idem name maxLen, fun _ h => shorten_name_idem h⟩

/-- C4 counterexample: "The Gap" is already within the 24-character
limit, yet shorten_company strips the literal "The" and returns "Gap". -/
theorem shorten_company_counterexample :
    (str ("The Gap")).length ≤ 24 ∧
    shorten_company (str ("The Gap")) 24 = str ("Gap") ∧
    shorten_company (str ("The Gap")) 24 ≠ str ("The Gap") := by decide

/-- C5: every successful shorten_name result fits the length limit (the
front-trim stage either gets within budget or leaves a single
whitespace-free word, which the final truncation cuts to the empty
string).  The claim's "never an empty string for non-empty input" part is
false — see the counterexample. -/
theorem shorten_name_fits (name : Str) (maxLen : Nat) (r : Str)
    (h : shorten_name name maxLen = .ok r) : r.length ≤ maxLen :=
  shorten_name_length_le h

theorem shorten_name_fits_witness : (str ("abc")).length ≤ 30 :=
  shorten_name_fits (str ("abc")) 30 (str ("abc")) rfl

/-- C5 counterexample: a non-empty 31-character single word is shortened
to the empty string: the hard truncation finds no space and keeps
nothing. -/
theorem shorten_name_empty_counterexample :
    str ("Engqqqqqqqqqqqqqqqqqqqqqqqqqqqq") ≠ [] ∧
    (str ("Engqqqqqqqqqqqqqqqqqqqqqqqqqqqq")).length = 31 ∧
    shorten_name (str ("Engqqqqqqqqqqqqqqqqqqqqqqqqqqqq")) 30 = .ok [] :=
  ⟨by decide, by decide, rfl⟩

/-- C6: the noise-term removal of remove_from never loses the keyword: a
removal pass is only accepted when the keyword still occurs in the
shortened string, so a keyword occurring in the input still occurs in the
output.  (The later pipeline stages of shorten_name are not guarded, so
the end-to-end claim fails — see the counterexample.) -/
theorem remove_from_keeps_keyword (name : Str) (maxLen : Nat) (kw : Str)
    (h : occursIn kw name) : occursIn kw (remove_from name maxLen kw) :=
  remove_from_go_keeps termPatterns name maxLen kw h

theorem remove_from_keeps_keyword_witness :
    occursIn (str ("Eng"))
      (remove_from (str ("Contract to hire Eng role")) 5 (str ("Eng"))) :=
  remove_from_keeps_keyword (str ("Contract to hire Eng role")) 5
    (str ("Eng")) ((hasSub_iff _ _).mp (by rfl))

/-- C6 counterexample: a 31-character single word over the 30 limit whose
title noun (the required keyword) is the word itself: the result is the
empty string, which no longer contains the keyword. -/
theorem shorten_name_keyword_counterexample :
    titleNounOf (reSplit boundRE (pyStrip kwNameEx)) = kwNameEx ∧
    kwNameEx ≠ [] ∧
    hasSub kwNameEx kwNameEx = true ∧
    kwNameEx.length > 30 ∧
    shorten_name kwNameEx 30 = .ok [] ∧
    hasSub kwNameEx [] = false :=
  ⟨rfl, by decide, rfl, by decide, rfl, rfl⟩

/-- C7: what is true of try_filter_df: a non-empty input table never
comes back empty — every emptying filter outcome falls back to an earlier
set or to the original table.  (The claim's per-filter skip behaviour is
not what the code does: the restore happens one iteration late, consuming
the next filter, and a final emptying filter falls back to the whole
original table rather than to the set the earlier filters had narrowed —
see the counterexample.) -/
theorem try_filter_df_never_empties (df : Df)
    (filters : List (Col × List Str)) (h : df ≠ []) :
    try_filter_df df filters ≠ [] := by
  rw [try_filter_df]
  rcases hL : filtLoop filters df df with ⟨newDf, flag⟩
  cases flag
  · show tfdFinal df filters newDf ≠ []
    rw [tfdFinal]
    rcases hC : subPass filters newDf with ⟨df2, flag2⟩
    cases flag2
    · show (if List.length df2 > 0 then df2 else df) ≠ []
      split
      · rename_i hp
        exact List.length_pos.mp hp
      · exact h
    · show df2 ≠ []
      by_cases hgt : List.length newDf > 1
      · have hC2 : containsOuter filters newDf = (df2, true) := by
          rw [← hC, subPass, if_pos hgt]
        have h2 := containsOuter_true_len filters newDf
        rw [hC2] at h2
        have h3 := h2 rfl
        intro hnil
        rw [hnil] at h3
        exact absurd h3 (by decide)
      · have hC2 : (newDf, false) = (df2, true) := by
          rw [← hC, subPass, if_neg hgt]
        exact absurd (congrArg Prod.snd hC2) Bool.false_ne_true
  · show newDf ≠ []
    have h2 := filtLoop_true_len filters df df
    rw [hL] at h2
    have h3 := h2 rfl
    intro hnil
    rw [hnil] at h3
    exact absurd h3 (by decide)

theorem try_filter_df_never_empties_witness :
    try_filter_df dfEx2 filtersEx ≠ [] :=
  try_filter_df_never_empties dfEx2 filtersEx (by decide)

/-- C7 counterexample: two filters over a three-row table.  The first
narrows to two rows, the second matches nothing.  The claim (modelled by
filter_seq_claim) skips the emptying filter and keeps the two narrowed
rows; the code leaves the loop with an empty set and falls back to the
whole original table. -/
theorem try_filter_df_counterexample :
    try_filter_df dfEx3 filtersEx = dfEx3 ∧
    filter_seq_claim dfEx3 filtersEx = [(0, rowEx0), (1, rowEx1)] ∧
    isinFilter [(0, rowEx0), (1, rowEx1)] Col.name [str ("Zeta")] =
      ([] : Df) ∧
    try_filter_df dfEx3 filtersEx ≠ filter_seq_claim dfEx3 filtersEx := by
  decide

/-- C8: update_status_of only ever appends a cell update for the status
column (LinkedInJob.COLS column 4) of the located row, does so only when
that row's status is not "Rejected", leaves a Rejected row's state fully
unchanged, and never touches the new-row queue or any other column of the
cached table. -/
theorem update_status_of_spec (u : Updater) (j : JobRec) (ns : Str)
    (u' : Updater) (h : update_status_of u j ns = .ok u') :
    u'.new_rows = u.new_rows ∧
    (∀ e ∈ u'.updates, e ∈ u.updates ∨
      ∃ row, find_row_of_job j u.df = .ok row ∧
        dfGet u.df row Col.status ≠ str ("Rejected") ∧
        e = (rowcol_to_a1 (row + 2) 4, ns)) ∧
    (∀ row, find_row_of_job j u.df = .ok row →
      dfGet u.df row Col.status = str ("Rejected") → u' = u) ∧
    (∀ i c, c ≠ Col.status → dfGet u'.df i c = dfGet u.df i c) := by
  rw [update_status_of] at h
  cases hF : find_row_of_job j u.df with
  | error e =>
    rw [hF] at h
    exact Except.noConfusion h
  | ok row =>
    rw [hF] at h
    have h2 : updateAt u row ns = .ok u' := h
    rw [updateAt] at h2
    by_cases hs : dfGet u.df row Col.status ≠ str ("Rejected")
    · rw [if_pos hs] at h2
      have hu : u' = ⟨dfSet u.df row Col.status ns,
          u.updates ++ [(rowcol_to_a1 (row + 2) 4, ns)], u.new_rows⟩ :=
        (Except.ok.inj h2).symm
      subst hu
      refine ⟨rfl, ?_, ?_, ?_⟩
      · intro e he
        rcases List.mem_append.mp he with he | he
        · exact Or.inl he
        · exact Or.inr ⟨row, rfl, hs, List.mem_singleton.mp he⟩
      · intro row' hrow' hrej
        have hr : row' = row := (Except.ok.inj hrow').symm
        rw [hr] at hrej
        exact absurd hrej hs
      · intro i c hc
        exact dfGet_dfSet_other u.df row i Col.status c ns hc
    · rw [if_neg hs] at h2
      have hu : u' = u := (Except.ok.inj h2).symm
      subst hu
      exact ⟨rfl, fun e he => Or.inl he, fun row' h1 h2 => rfl,
        fun i c hc => rfl⟩

theorem update_status_of_spec_witness :
    updEx'.new_rows = updEx.new_rows ∧
    (∀ e ∈ updEx'.updates, e ∈ updEx.updates ∨
      ∃ row, find_row_of_job jobAlpha updEx.df = .ok row ∧
        dfGet updEx.df row Col.status ≠ str ("Rejected") ∧
        e = (rowcol_to_a1 (row + 2) 4, str ("Viewed"))) ∧
    (∀ row, find_row_of_job jobAlpha updEx.df = .ok row →
      dfGet updEx.df row Col.status = str ("Rejected") →
      updEx' = updEx) ∧
    (∀ i c, c ≠ Col.status → dfGet updEx'.df i c = dfGet updEx.df i c) :=
  update_status_of_spec updEx jobAlpha (str ("Viewed")) updEx' rfl

/-- C9: the subject-extraction outcomes: a subject the grammar does not
match raises (TypeError from dict.update(None)); a matched subject's
company group is taken as is.  (The claim's "empty company raises" and
"matched subjects yield non-empty company" parts are false: the grammar
accepts a match with an empty company group, which the code then
processes without error — see the counterexample.) -/
theorem subjectCompany_spec (s : Str) :
    (subjectGroups s = none → subjectCompany s = .error .typeError) ∧
    (∀ caps c, subjectGroups s = some caps → capGet 2 caps = some c →
      subjectCompany s = .ok c) := by
  constructor
  · intro h
    rw [subjectCompany, h]
  · intro caps c h1 h2
    have h3 : subjectCompany s = match capGet 2 caps with
        | none => .error .attributeError
        | some c2 => .ok c2 := by
      rw [subjectCompany, h1]
    rw [h3, h2]

/-- C9 counterexample: "You  to" matches the subject grammar with an
empty company group, and extraction proceeds with the empty company
instead of raising. -/
theorem subject_empty_company_counterexample :
    (subjectGroups (str ("You  to"))).isSome = true ∧
    subjectCompany (str ("You  to")) = .ok [] :=
  ⟨rfl, rfl⟩

/-- C10: send_updates issues the queued batch update and row insert but
leaves the updater state — both queues included — unchanged, so flushing
twice issues every operation twice. -/
theorem send_updates_frame (u : Updater) (log : List SheetOp) (n : Nat)
    (h1 : u.updates ≠ []) (h2 : u.new_rows ≠ []) :
    (send_updates u log n).1 = u ∧
    (send_updates u log n).2 = log ++ [SheetOp.batchUpdate u.updates,
      SheetOp.insertRows u.new_rows n] ∧
    (send_updates u (log ++ [SheetOp.batchUpdate u.updates,
      SheetOp.insertRows u.new_rows n]) n).2 =
      log ++ [SheetOp.batchUpdate u.updates,
        SheetOp.insertRows u.new_rows n,
        SheetOp.batchUpdate u.updates,
        SheetOp.insertRows u.new_rows n] := by
  have key : ∀ L : List SheetOp, (send_updates u L n).2 =
      L ++ [SheetOp.batchUpdate u.updates,
        SheetOp.insertRows u.new_rows n] := by
    intro L
    simp only [send_updates, if_pos h1, if_pos h2, List.append_assoc]
    rfl
  refine ⟨rfl, key log, ?_⟩
  rw [key]
  simp [List.append_assoc]

theorem send_updates_frame_witness :
    (send_updates updQ [] 2).1 = updQ ∧
    (send_updates updQ [] 2).2 = [] ++ [SheetOp.batchUpdate updQ.updates,
      SheetOp.insertRows updQ.new_rows 2] ∧
    (send_updates updQ ([] ++ [SheetOp.batchUpdate updQ.updates,
      SheetOp.insertRows updQ.new_rows 2]) 2).2 =
      [] ++ [SheetOp.batchUpdate updQ.updates,
        SheetOp.insertRows updQ.new_rows 2,
        SheetOp.batchUpdate updQ.updates,
        SheetOp.insertRows updQ.new_rows 2] :=
  send_updates_frame updQ [] 2 (by decide) (by decide)
